import Mathlib

/-
  Verification of the a1s live resource-table synchronization and caching
  engine against its natural-language specification.

  The Go sources are shallowly embedded: strings are lists of characters,
  Go maps are association lists (with a key-uniqueness invariant where the
  map semantics requires it), time.Time instants and time.Duration values
  are integers supplied explicitly to each operation that calls time.Now(),
  and stateful methods are pure state-passing functions.
-/

namespace A1s

/-- Go strings, embedded as lists of characters. -/
abbrev GoStr := List Char

/-! ## Row model: internal/model1 (header, rows, delta rows) -/

/-- One table header column: a name plus the semantic attributes used by the
claims (embeds model1.HeaderColumn with its Attrs; the render-only Align and
Decorator fields are omitted). -/
structure HeaderColumn where
  name : GoStr
  wide : Bool := false
  time : Bool := false
  capacity : Bool := false
  hide : Bool := false
deriving DecidableEq, Repr

/-- A table header (embeds model1.Header, a slice of columns). -/
abbrev Header := List HeaderColumn

/-- Embeds model1.Header.IsTimeCol: false out of range, else the column's
Time attribute.  Indices are natural numbers, so the Go col < 0 branch is
vacuous. -/
def isTimeCol (h : Header) (col : Nat) : Bool :=
  if hlt : col < h.length then (h.get ⟨col, hlt⟩).time else false

/-- Embeds model1.Header.IsCapacityCol. -/
def isCapacityCol (h : Header) (col : Nat) : Bool :=
  if hlt : col < h.length then (h.get ⟨col, hlt⟩).capacity else false

/-- A table row (embeds model1.Row): an identifier plus string field values. -/
structure Row where
  id : GoStr := []
  fields : List GoStr := []
deriving DecidableEq, Repr

/-- A delta row (embeds model1.DeltaRow): per column, the old value where it
changed meaningfully, else the empty placeholder. -/
abbrev DeltaRow := List GoStr

/-- Embeds model1.NewDeltaRow: deltas has the old row's length; index i gets
the old value when i is in range of the new row, the old value is non-empty
and differs from the new value, and column i is not a time column; every
other index keeps the empty placeholder. -/
def newDeltaRow (o n : Row) (h : Header) : DeltaRow :=
  (List.range o.fields.length).map (fun i =>
    if n.fields.length ≤ i then []
    else if o.fields.getD i [] ≠ [] ∧ o.fields.getD i [] ≠ n.fields.getD i []
            ∧ isTimeCol h i = false then
      o.fields.getD i []
    else [])

/-- Embeds model1.DeltaRow.IsBlank: true iff every entry is the empty
placeholder (vacuously true for the empty delta row). -/
def isBlank (d : DeltaRow) : Bool :=
  d.all List.isEmpty

theorem newDeltaRow_length (o n : Row) (h : Header) :
    (newDeltaRow o n h).length = o.fields.length := by
  simp [newDeltaRow]

theorem newDeltaRow_getD (o n : Row) (h : Header)
    (hlen : o.fields.length = n.fields.length)
    (i : Nat) (hi : i < o.fields.length) :
    (newDeltaRow o n h).getD i [] =
      (if o.fields.getD i [] ≠ n.fields.getD i [] ∧ isTimeCol h i = false then
        o.fields.getD i [] else []) := by
  have hR : i < (List.range o.fields.length).length := by simpa using hi
  have hmap : (newDeltaRow o n h).getD i [] =
      (if n.fields.length ≤ i then []
       else if o.fields.getD i [] ≠ [] ∧ o.fields.getD i [] ≠ n.fields.getD i []
               ∧ isTimeCol h i = false then o.fields.getD i [] else []) := by
    rw [newDeltaRow, List.getD_eq_getElem _ _ (by simpa using hi),
      List.getElem_map, List.getElem_range]
  rw [hmap]
  have hni : ¬ n.fields.length ≤ i := by omega
  rw [if_neg hni]
  by_cases hemp : o.fields.getD i [] = []
  · by_cases hc : o.fields.getD i [] ≠ n.fields.getD i [] ∧ isTimeCol h i = false
    · rw [if_neg (fun hx => hx.1 hemp), if_pos hc, hemp]
    · rw [if_neg (fun hx => hx.1 hemp), if_neg hc]
  · by_cases hc : o.fields.getD i [] ≠ n.fields.getD i [] ∧ isTimeCol h i = false
    · rw [if_pos ⟨hemp, hc.1, hc.2⟩, if_pos hc]
    · rw [if_neg (fun hx => hc ⟨hx.2.1, hx.2.2⟩), if_neg hc]

theorem newDeltaRow_blank_of_time_only (o n : Row) (h : Header)
    (honly : ∀ i, i < o.fields.length →
      o.fields.getD i [] ≠ n.fields.getD i [] → isTimeCol h i = true) :
    isBlank (newDeltaRow o n h) = true := by
  rw [isBlank, List.all_eq_true]
  intro v hv
  rw [newDeltaRow, List.mem_map] at hv
  obtain ⟨i, hiR, hval⟩ := hv
  rw [List.mem_range] at hiR
  subst hval
  by_cases hni : n.fields.length ≤ i
  · simp [hni]
  · rw [if_neg hni]
    by_cases hd : o.fields.getD i [] = n.fields.getD i []
    · rw [if_neg (fun hx => hx.2.1 hd)]
      simp
    · have ht := honly i hiR hd
      rw [if_neg (fun hx => by rw [ht] at hx; exact absurd hx.2.2 (by decide))]
      simp

/-- C3: for rows of equal field count, NewDeltaRow has the old row's length
and holds, at every column index, the old value exactly when old and new
differ there and the column is not time-attributed, else the empty
placeholder; rows differing only in time-attributed columns yield a blank
delta row. -/
theorem C3_newDeltaRow_contract (h : Header) (o n : Row)
    (hlen : o.fields.length = n.fields.length) :
    (newDeltaRow o n h).length = o.fields.length
    ∧ (∀ i, i < o.fields.length →
        (newDeltaRow o n h).getD i [] =
          (if o.fields.getD i [] ≠ n.fields.getD i [] ∧ isTimeCol h i = false then
            o.fields.getD i [] else []))
    ∧ ((∀ i, i < o.fields.length →
          o.fields.getD i [] ≠ n.fields.getD i [] → isTimeCol h i = true) →
        isBlank (newDeltaRow o n h) = true) :=
  ⟨newDeltaRow_length o n h,
   fun i hi => newDeltaRow_getD o n h hlen i hi,
   fun honly => newDeltaRow_blank_of_time_only o n h honly⟩

/-- Witness for C3 at a concrete header and row pair: a two-column header
whose second column is the AGE column, rows differing in both columns. -/
theorem C3_newDeltaRow_contract_witness :
    (let h : Header := [⟨['N'], false, false, false, false⟩,
                        ⟨['A'], false, true, false, false⟩]
     let o : Row := ⟨['x'], [['a'], ['1']]⟩
     let n : Row := ⟨['x'], [['b'], ['2']]⟩
     o.fields.length = n.fields.length
     ∧ ((newDeltaRow o n h).length = o.fields.length
        ∧ (∀ i, i < o.fields.length →
            (newDeltaRow o n h).getD i [] =
              (if o.fields.getD i [] ≠ n.fields.getD i []
                  ∧ isTimeCol h i = false then
                o.fields.getD i [] else []))
        ∧ ((∀ i, i < o.fields.length →
              o.fields.getD i [] ≠ n.fields.getD i [] → isTimeCol h i = true) →
            isBlank (newDeltaRow o n h) = true))) :=
  ⟨by decide, C3_newDeltaRow_contract _ _ _ (by decide)⟩

/-! ## Ordering: internal/model1/row.go and the sortorder dependency -/

/-- Byte-level digit test from the sortorder dependency (ASCII 0 to 9). -/
def isDigitGo (c : Char) : Bool :=
  decide ('0' ≤ c) && decide (c ≤ '9')

/-- Go built-in string comparison (bytewise lexicographic, a strict prefix
is smaller), used by the sortorder dependency on equal-length digit runs. -/
def lexLtGo : GoStr → GoStr → Bool
  | [], [] => false
  | [], _ :: _ => true
  | _ :: _, [] => false
  | a :: as, b :: bs => if a = b then lexLtGo as bs else decide (a < b)

theorem length_dropWhile_le (p : Char → Bool) (l : GoStr) :
    (l.dropWhile p).length ≤ l.length := by
  induction l with
  | nil => simp
  | cons a l ih =>
    rw [List.dropWhile_cons]
    by_cases hp : p a = true
    · rw [if_pos hp]; exact Nat.le_succ_of_le ih
    · rw [if_neg hp]

/-- The suffix of a string after eating its leading zeros, as the
number-comparison step of the sortorder dependency does. -/
def eatZeros (s : GoStr) : GoStr :=
  s.dropWhile (fun c => c = '0')

/-- How many leading zeros the number-comparison step eats.  The source
compares the two absolute indices reached after eating zeros; the consumed
prefixes of both strings are identical whenever the comparison loop
continues, so those indices agree with these counts. -/
def zeroCount (s : GoStr) : Nat :=
  (s.takeWhile (fun c => c = '0')).length

/-- The digit run following the eaten zeros. -/
def digitRun (s : GoStr) : GoStr :=
  (eatZeros s).takeWhile isDigitGo

/-- The part of a string left after eating its leading zeros and then the
digit run that follows them, as the number-comparison step of the sortorder
dependency does before looping. -/
def numTail (s : GoStr) : GoStr :=
  (eatZeros s).dropWhile isDigitGo

theorem numTail_length_le (s : GoStr) : (numTail s).length ≤ s.length :=
  Nat.le_trans (length_dropWhile_le _ _) (length_dropWhile_le _ _)

theorem numTail_length_lt (c : Char) (t : GoStr) (hd : isDigitGo c = true) :
    (numTail (c :: t)).length < (c :: t).length := by
  by_cases hz : c = '0'
  · have hdw : eatZeros (c :: t) = eatZeros t := by
      rw [eatZeros, eatZeros, List.dropWhile_cons, if_pos (by simp [hz])]
    rw [numTail, hdw]
    have h1 := length_dropWhile_le isDigitGo (eatZeros t)
    have h2 : (eatZeros t).length ≤ t.length := length_dropWhile_le _ _
    simp only [List.length_cons]
    omega
  · have hdw : eatZeros (c :: t) = c :: t := by
      rw [eatZeros, List.dropWhile_cons, if_neg (by simp [hz])]
    rw [numTail, hdw, List.dropWhile_cons, if_pos hd]
    have h1 := length_dropWhile_le isDigitGo t
    simp only [List.length_cons]
    omega

/-- Embeds NaturalLess from github.com/fvbommel/sortorder (the repository's
natural-order comparison dependency, not under src/): walk both strings in
lockstep; digit runs sort before other characters, non-digit characters
compare bytewise, and two digit runs compare by the length of their
zero-stripped parts, then by those parts bytewise, then by the number of
leading zeros eaten (the source compares the two absolute indices reached
after eating zeros, which agree with the zero counts because the consumed
prefixes are identical whenever the loop continues); exhausting one string
leaves the shorter one smaller. -/
def natLess : GoStr → GoStr → Bool
  | [], [] => false
  | [], _ :: _ => true
  | _ :: _, [] => false
  | c1 :: t1, c2 :: t2 =>
    if isDigitGo c1 ≠ isDigitGo c2 then isDigitGo c1
    else if hnd : isDigitGo c1 = false then
      (if c1 = c2 then natLess t1 t2 else decide (c1 < c2))
    else
      if (digitRun (c1 :: t1)).length ≠ (digitRun (c2 :: t2)).length then
        decide ((digitRun (c1 :: t1)).length < (digitRun (c2 :: t2)).length)
      else if digitRun (c1 :: t1) ≠ digitRun (c2 :: t2) then
        lexLtGo (digitRun (c1 :: t1)) (digitRun (c2 :: t2))
      else if zeroCount (c1 :: t1) ≠ zeroCount (c2 :: t2) then
        decide (zeroCount (c1 :: t1) < zeroCount (c2 :: t2))
      else natLess (numTail (c1 :: t1)) (numTail (c2 :: t2))
termination_by s1 s2 => s1.length + s2.length
decreasing_by
  · simp only [List.length_cons]; omega
  · have hd1 : isDigitGo a = true := by
      rcases Bool.eq_false_or_eq_true (isDigitGo a) with h | h
      · exact h
      · exact absurd h hnd
    have h1 := numTail_length_lt a as hd1
    have h2 := numTail_length_le (b :: bs)
    omega

theorem decide_nat_asym {m n : Nat} (h : m ≠ n) :
    decide (n < m) = !decide (m < n) := by
  by_cases hmn : m < n
  · have hx : ¬ n < m := Nat.lt_asymm hmn
    simp [hmn, hx]
  · have hnm : n < m := by omega
    simp [hnm, hmn]

theorem decide_char_asym {a b : Char} (h : a ≠ b) :
    decide (b < a) = !decide (a < b) := by
  by_cases hab : a < b
  · have hx : ¬ b < a := lt_asymm hab
    simp [hab, hx]
  · have hba : b < a := (lt_or_gt_of_ne h).resolve_left hab
    simp [hba, hab]

theorem lexLtGo_asym : ∀ l1 l2 : GoStr, l1 ≠ l2 → lexLtGo l2 l1 = !lexLtGo l1 l2 := by
  intro l1
  induction l1 with
  | nil =>
    intro l2 h
    cases l2 with
    | nil => exact absurd rfl h
    | cons b bs => simp [lexLtGo]
  | cons a t ih =>
    intro l2 h
    cases l2 with
    | nil => simp [lexLtGo]
    | cons b bs =>
      by_cases hab : a = b
      · subst hab
        have ht : t ≠ bs := fun hh => h (by rw [hh])
        simp only [lexLtGo, if_pos rfl]
        exact ih bs ht
      · have hba : ¬ b = a := fun hh => hab hh.symm
        simp only [lexLtGo, if_neg hab, if_neg hba]
        exact decide_char_asym hab

theorem takeWhile_zeros_eq_replicate (s : GoStr) :
    s.takeWhile (fun c => c = '0') = List.replicate (zeroCount s) '0' := by
  rw [zeroCount, List.eq_replicate]
  refine ⟨rfl, fun b hb => ?_⟩
  have := List.mem_takeWhile_imp hb
  exact of_decide_eq_true this

theorem string_decomp (s : GoStr) :
    s = List.replicate (zeroCount s) '0' ++ (digitRun s ++ numTail s) := by
  conv_lhs => rw [← List.takeWhile_append_dropWhile (p := fun c => c = '0') (l := s)]
  rw [takeWhile_zeros_eq_replicate]
  congr 1
  rw [digitRun, numTail, List.takeWhile_append_dropWhile, eatZeros]

theorem natLess_cons (c1 c2 : Char) (t1 t2 : GoStr) :
    natLess (c1 :: t1) (c2 :: t2) =
      (if isDigitGo c1 ≠ isDigitGo c2 then isDigitGo c1
       else if isDigitGo c1 = false then
         (if c1 = c2 then natLess t1 t2 else decide (c1 < c2))
       else if (digitRun (c1 :: t1)).length ≠ (digitRun (c2 :: t2)).length then
         decide ((digitRun (c1 :: t1)).length < (digitRun (c2 :: t2)).length)
       else if digitRun (c1 :: t1) ≠ digitRun (c2 :: t2) then
         lexLtGo (digitRun (c1 :: t1)) (digitRun (c2 :: t2))
       else if zeroCount (c1 :: t1) ≠ zeroCount (c2 :: t2) then
         decide (zeroCount (c1 :: t1) < zeroCount (c2 :: t2))
       else natLess (numTail (c1 :: t1)) (numTail (c2 :: t2))) := by
  rw [natLess]
  simp only [dite_eq_ite]

theorem natLess_nil_nil : natLess [] [] = false := by
  rw [natLess]

theorem natLess_nil_cons (c : Char) (t : GoStr) : natLess [] (c :: t) = true := by
  rw [natLess]

theorem natLess_cons_nil (c : Char) (t : GoStr) : natLess (c :: t) [] = false := by
  rw [natLess]

/-- Combined irreflexivity and asymmetry-with-totality of the embedded
NaturalLess, proved by strong induction on total length. -/
theorem natLess_main : ∀ (N : Nat) (s1 s2 : GoStr), s1.length + s2.length ≤ N →
    (s1 = s2 → natLess s1 s2 = false) ∧
    (s1 ≠ s2 → natLess s2 s1 = !natLess s1 s2) := by
  intro N
  induction N with
  | zero =>
    intro s1 s2 hlen
    cases s1 with
    | nil =>
      cases s2 with
      | nil => exact ⟨fun _ => natLess_nil_nil, fun h => absurd rfl h⟩
      | cons c t => simp at hlen
    | cons c t => simp at hlen
  | succ N ih =>
    intro s1 s2 hlen
    cases s1 with
    | nil =>
      cases s2 with
      | nil => exact ⟨fun _ => natLess_nil_nil, fun h => absurd rfl h⟩
      | cons c2 t2 =>
        refine ⟨fun h => List.noConfusion h, fun _ => ?_⟩
        rw [natLess_cons_nil, natLess_nil_cons]
        rfl
    | cons c1 t1 =>
      cases s2 with
      | nil =>
        refine ⟨fun h => List.noConfusion h, fun _ => ?_⟩
        rw [natLess_nil_cons, natLess_cons_nil]
        rfl
      | cons c2 t2 =>
        simp only [List.length_cons] at hlen
        constructor
        · intro heq
          injection heq with hc ht
          subst hc
          subst ht
          rw [natLess_cons, if_neg (fun hh => hh rfl)]
          by_cases hd : isDigitGo c1 = false
          · rw [if_pos hd, if_pos rfl]
            exact (ih t1 t1 (by omega)).1 rfl
          · have hd1 : isDigitGo c1 = true := by
              rcases Bool.eq_false_or_eq_true (isDigitGo c1) with h | h
              · exact h
              · exact absurd h hd
            rw [if_neg hd, if_neg (fun hh => hh rfl), if_neg (fun hh => hh rfl),
              if_neg (fun hh => hh rfl)]
            have hlt := numTail_length_lt c1 t1 hd1
            simp only [List.length_cons] at hlt
            exact (ih (numTail (c1 :: t1)) (numTail (c1 :: t1)) (by omega)).1 rfl
        · intro hne
          by_cases hdig : isDigitGo c1 = isDigitGo c2
          · have hA : ¬ (isDigitGo c1 ≠ isDigitGo c2) := fun hh => hh hdig
            have hA2 : ¬ (isDigitGo c2 ≠ isDigitGo c1) := fun hh => hh hdig.symm
            by_cases hd : isDigitGo c1 = false
            · have hd2 : isDigitGo c2 = false := by rw [← hdig]; exact hd
              have e12 : natLess (c1 :: t1) (c2 :: t2) =
                  (if c1 = c2 then natLess t1 t2 else decide (c1 < c2)) := by
                rw [natLess_cons, if_neg hA, if_pos hd]
              have e21 : natLess (c2 :: t2) (c1 :: t1) =
                  (if c2 = c1 then natLess t2 t1 else decide (c2 < c1)) := by
                rw [natLess_cons, if_neg hA2, if_pos hd2]
              rw [e12, e21]
              by_cases hc : c1 = c2
              · subst hc
                have ht : t1 ≠ t2 := fun hh => hne (by rw [hh])
                rw [if_pos rfl, if_pos rfl]
                exact (ih t1 t2 (by omega)).2 ht
              · have hc2 : ¬ c2 = c1 := fun hh => hc hh.symm
                rw [if_neg hc2, if_neg hc]
                exact decide_char_asym hc
            · have hd1 : isDigitGo c1 = true := by
                rcases Bool.eq_false_or_eq_true (isDigitGo c1) with h | h
                · exact h
                · exact absurd h hd
              have hd2 : isDigitGo c2 = true := by rw [← hdig]; exact hd1
              have hd2f : ¬ isDigitGo c2 = false := by rw [hd2]; exact fun hh => by cases hh
              by_cases hL : (digitRun (c1 :: t1)).length = (digitRun (c2 :: t2)).length
              · by_cases hR : digitRun (c1 :: t1) = digitRun (c2 :: t2)
                · by_cases hK : zeroCount (c1 :: t1) = zeroCount (c2 :: t2)
                  · have e12 : natLess (c1 :: t1) (c2 :: t2) =
                        natLess (numTail (c1 :: t1)) (numTail (c2 :: t2)) := by
                      rw [natLess_cons, if_neg hA, if_neg hd,
                        if_neg (fun hh => hh hL), if_neg (fun hh => hh hR),
                        if_neg (fun hh => hh hK)]
                    have e21 : natLess (c2 :: t2) (c1 :: t1) =
                        natLess (numTail (c2 :: t2)) (numTail (c1 :: t1)) := by
                      rw [natLess_cons, if_neg hA2, if_neg hd2f,
                        if_neg (fun hh => hh hL.symm), if_neg (fun hh => hh hR.symm),
                        if_neg (fun hh => hh hK.symm)]
                    rw [e12, e21]
                    have htail : numTail (c1 :: t1) ≠ numTail (c2 :: t2) := by
                      intro hT
                      apply hne
                      rw [string_decomp (c1 :: t1), string_decomp (c2 :: t2),
                        hK, hR, hT]
                    have hlt1 := numTail_length_lt c1 t1 hd1
                    have hlt2 := numTail_length_lt c2 t2 hd2
                    simp only [List.length_cons] at hlt1 hlt2
                    exact (ih (numTail (c1 :: t1)) (numTail (c2 :: t2))
                      (by omega)).2 htail
                  · have hK2 : zeroCount (c2 :: t2) ≠ zeroCount (c1 :: t1) :=
                      fun hh => hK hh.symm
                    have e12 : natLess (c1 :: t1) (c2 :: t2) =
                        decide (zeroCount (c1 :: t1) < zeroCount (c2 :: t2)) := by
                      rw [natLess_cons, if_neg hA, if_neg hd,
                        if_neg (fun hh => hh hL), if_neg (fun hh => hh hR),
                        if_pos hK]
                    have e21 : natLess (c2 :: t2) (c1 :: t1) =
                        decide (zeroCount (c2 :: t2) < zeroCount (c1 :: t1)) := by
                      rw [natLess_cons, if_neg hA2, if_neg hd2f,
                        if_neg (fun hh => hh hL.symm), if_neg (fun hh => hh hR.symm),
                        if_pos hK2]
                    rw [e12, e21]
                    exact decide_nat_asym hK
                · have hR2 : digitRun (c2 :: t2) ≠ digitRun (c1 :: t1) :=
                    fun hh => hR hh.symm
                  have e12 : natLess (c1 :: t1) (c2 :: t2) =
                      lexLtGo (digitRun (c1 :: t1)) (digitRun (c2 :: t2)) := by
                    rw [natLess_cons, if_neg hA, if_neg hd,
                      if_neg (fun hh => hh hL), if_pos hR]
                  have e21 : natLess (c2 :: t2) (c1 :: t1) =
                      lexLtGo (digitRun (c2 :: t2)) (digitRun (c1 :: t1)) := by
                    rw [natLess_cons, if_neg hA2, if_neg hd2f,
                      if_neg (fun hh => hh hL.symm), if_pos hR2]
                  rw [e12, e21]
                  exact lexLtGo_asym _ _ hR
              · have hL2 : (digitRun (c2 :: t2)).length ≠
                    (digitRun (c1 :: t1)).length := fun hh => hL hh.symm
                have e12 : natLess (c1 :: t1) (c2 :: t2) =
                    decide ((digitRun (c1 :: t1)).length <
                      (digitRun (c2 :: t2)).length) := by
                  rw [natLess_cons, if_neg hA, if_neg hd, if_pos hL]
                have e21 : natLess (c2 :: t2) (c1 :: t1) =
                    decide ((digitRun (c2 :: t2)).length <
                      (digitRun (c1 :: t1)).length) := by
                  rw [natLess_cons, if_neg hA2, if_neg hd2f, if_pos hL2]
                rw [e12, e21]
                exact decide_nat_asym hL
          · have hdig2 : isDigitGo c2 ≠ isDigitGo c1 := fun hh => hdig hh.symm
            have e12 : natLess (c1 :: t1) (c2 :: t2) = isDigitGo c1 := by
              rw [natLess_cons, if_pos hdig]
            have e21 : natLess (c2 :: t2) (c1 :: t1) = isDigitGo c2 := by
              rw [natLess_cons, if_pos hdig2]
            rw [e12, e21]
            rcases Bool.eq_false_or_eq_true (isDigitGo c1) with h1 | h1 <;>
              rcases Bool.eq_false_or_eq_true (isDigitGo c2) with h2 | h2 <;>
              simp_all

theorem natLess_irrefl (s : GoStr) : natLess s s = false :=
  (natLess_main (s.length + s.length) s s (Nat.le_refl _)).1 rfl

theorem natLess_asym_of_ne {s1 s2 : GoStr} (h : s1 ≠ s2) :
    natLess s2 s1 = !natLess s1 s2 :=
  (natLess_main (s1.length + s2.length) s1 s2 (Nat.le_refl _)).2 h

/-- Exactly one of natLess a b and natLess b a holds for distinct strings. -/
theorem natLess_exactly_one {s1 s2 : GoStr} (h : s1 ≠ s2) :
    natLess s1 s2 ≠ natLess s2 s1 := by
  rw [natLess_asym_of_ne h]
  cases natLess s1 s2 <;> simp

/-- The placeholder value for missing data (model1.NAValue). -/
def NAValue : GoStr := ['n', '/', 'a']

/-- Two's-complement wrap into the int64 range, the semantics of Go's
int64 arithmetic. -/
def wrap64 (n : Int) : Int :=
  (n + 2 ^ 63) % 2 ^ 64 - 2 ^ 63

/-- Go int64 addition: wraps on overflow. -/
def add64 (a b : Int) : Int :=
  wrap64 (a + b)

/-- Go int64 multiplication: wraps on overflow. -/
def mul64 (a b : Int) : Int :=
  wrap64 (a * b)

/-- Embeds model1.runesToNum via its backward loop: the pair is the
accumulated value and the next place-value multiplier, built from the last
rune towards the first exactly as the Go loop indexes from len-1 down to 0
with m starting at 1 and growing tenfold per step.  Both int64 updates
r += v*m and m *= 10 wrap.  The rune subtraction rr[i] - '0' never wraps
int32, since every Char code point is below 2^31, so v is exact. -/
def runesToNumAux : List Char → Int × Int
  | [] => (0, 1)
  | c :: rest =>
    let p := runesToNumAux rest
    (add64 p.1 (mul64 ((c.toNat : Int) - ('0'.toNat : Int)) p.2), mul64 p.2 10)

/-- Embeds model1.runesToNum. -/
def runesToNum (rr : List Char) : Int :=
  (runesToNumAux rr).1

/-- The per-unit multiplier of model1.durationToSeconds, none for a rune
that is not one of the recognized unit suffixes. -/
def unitSeconds : Char → Option Int
  | 'y' => some (365 * 24 * 60 * 60)
  | 'd' => some (24 * 60 * 60)
  | 'h' => some (60 * 60)
  | 'm' => some 60
  | 's' => some 1
  | _ => none

/-- The rune loop of model1.durationToSeconds: a unit suffix flushes the
accumulated digit buffer times its multiplier into the total and resets the
buffer (the int64 update n + runesToNum(num)*m wraps), any other rune is
appended to the buffer; a trailing buffer with no unit is dropped when the
string ends. -/
def durAux : List Char → Int → List Char → Int
  | [], n, _ => n
  | c :: rest, n, num =>
    match unitSeconds c with
    | some m => durAux rest (add64 n (mul64 (runesToNum num) m)) []
    | none => durAux rest n (num ++ [c])

/-- Embeds model1.durationToSeconds: empty and the n/a placeholder parse to
zero, every other string runs through the rune loop. -/
def durationToSeconds (duration : GoStr) : Int :=
  if duration = [] ∨ duration = NAValue then 0
  else durAux duration 0 []

/-- Embeds model1.lessDuration: compares parsed second counts with a
less-or-equal test. -/
def lessDuration (s1 s2 : GoStr) : Bool :=
  decide (durationToSeconds s1 ≤ durationToSeconds s2)

/-- Embeds model1.lessCapacity: plain natural-order comparison. -/
def lessCapacity (s1 s2 : GoStr) : Bool :=
  natLess s1 s2

/-- Embeds strings.ReplaceAll(s, ",", "") from model1.lessNumber. -/
def stripCommas (s : GoStr) : GoStr :=
  s.filter (fun c => c ≠ ',')

/-- Embeds model1.lessNumber: natural-order comparison of the comma-stripped
values. -/
def lessNumber (s1 s2 : GoStr) : Bool :=
  natLess (stripCommas s1) (stripCommas s2)

/-- Embeds model1.Less: pick the mode comparison, then override with the
natural-order comparison of the two row identifiers when the two values are
equal strings. -/
def Less (isNumber isDuration isCapacity : Bool) (id1 id2 v1 v2 : GoStr) : Bool :=
  let less :=
    if isNumber then lessNumber v1 v2
    else if isDuration then lessDuration v1 v2
    else if isCapacity then lessCapacity v1 v2
    else natLess v1 v2
  if v1 = v2 then natLess id1 id2 else less

theorem Less_eq (b1 b2 b3 : Bool) (id1 id2 v1 v2 : GoStr) :
    Less b1 b2 b3 id1 id2 v1 v2 =
      (if v1 = v2 then natLess id1 id2
       else if b1 then lessNumber v1 v2
       else if b2 then lessDuration v1 v2
       else if b3 then lessCapacity v1 v2
       else natLess v1 v2) := by
  by_cases hv : v1 = v2
  · simp [Less, hv]
  · simp [Less, hv]

/-! ### C5: duration parsing -/

/-- Decimal value of a digit sequence (most significant first). -/
def digitsVal (ds : List Nat) : Int :=
  ds.foldl (fun (a : Int) (d : Nat) => 10 * a + (d : Int)) 0

/-- Render a digit sequence as ASCII characters. -/
def renderDigits (ds : List Nat) : GoStr :=
  ds.map (fun d => Char.ofNat (48 + d))

/-- The recognized unit suffixes of the compact duration syntax. -/
def unitList : List Char := ['y', 'd', 'h', 'm', 's']

/-- Render a list of digit-run and unit-suffix pairs as one compact
duration string. -/
def renderDur (ps : List (List Nat × Char)) : GoStr :=
  (ps.map (fun p => renderDigits p.1 ++ [p.2])).flatten

/-- Total seconds a rendered duration denotes: each digit run times its
unit multiplier, summed. -/
def durSum (ps : List (List Nat × Char)) : Int :=
  (ps.map (fun p => digitsVal p.1 * (unitSeconds p.2).getD 0)).sum

theorem toNat_digitChar (d : Nat) (hd : d < 10) :
    (Char.ofNat (48 + d)).toNat = 48 + d := by
  interval_cases d <;> decide

theorem unitSeconds_digitChar (d : Nat) (hd : d < 10) :
    unitSeconds (Char.ofNat (48 + d)) = none := by
  interval_cases d <;> decide

theorem digitChar_ne_n (d : Nat) (hd : d < 10) : Char.ofNat (48 + d) ≠ 'n' := by
  interval_cases d <;> decide

theorem digitsVal_foldl (l : List Nat) (a : Int) :
    l.foldl (fun (x : Int) (d : Nat) => 10 * x + (d : Int)) a =
      a * 10 ^ l.length + digitsVal l := by
  induction l generalizing a with
  | nil => simp [digitsVal]
  | cons d rest ih =>
    rw [List.foldl_cons, ih (10 * a + (d : Int))]
    have hd : digitsVal (d :: rest) = (d : Int) * 10 ^ rest.length + digitsVal rest := by
      rw [digitsVal, List.foldl_cons, ih (10 * 0 + (d : Int))]
      ring
    rw [hd]
    simp only [List.length_cons]
    ring

theorem wrap64_eq_self {n : Int} (h1 : -(2 ^ 63) ≤ n) (h2 : n < 2 ^ 63) :
    wrap64 n = n := by
  have h63 : (2 : Int) ^ 63 = 9223372036854775808 := by norm_num
  have h64 : (2 : Int) ^ 64 = 18446744073709551616 := by norm_num
  rw [h63] at h1 h2
  rw [wrap64, h63, h64, Int.emod_eq_of_lt (by omega) (by omega)]
  omega

theorem digitsVal_nonneg (ds : List Nat) : 0 ≤ digitsVal ds := by
  induction ds with
  | nil => exact le_refl 0
  | cons d rest ih =>
    have hd : digitsVal (d :: rest) =
        (d : Int) * 10 ^ rest.length + digitsVal rest := by
      rw [digitsVal, List.foldl_cons, digitsVal_foldl]
      ring
    rw [hd]
    exact add_nonneg (mul_nonneg (Int.natCast_nonneg d) (by positivity)) ih

theorem digitsVal_lt (ds : List Nat) (hds : ∀ d ∈ ds, d < 10) :
    digitsVal ds < 10 ^ ds.length := by
  induction ds with
  | nil => norm_num [digitsVal]
  | cons d rest ih =>
    have hd : d < 10 := hds d (List.mem_cons_self _ _)
    have hrest : ∀ x ∈ rest, x < 10 := fun x hx => hds x (List.mem_cons_of_mem _ hx)
    have hcons : digitsVal (d :: rest) =
        (d : Int) * 10 ^ rest.length + digitsVal rest := by
      rw [digitsVal, List.foldl_cons, digitsVal_foldl]
      ring
    rw [hcons, List.length_cons]
    have h1 : (d : Int) ≤ 9 := by exact_mod_cast Nat.lt_succ_iff.mp hd
    have h2 := ih hrest
    have h3 : (0 : Int) < 10 ^ rest.length := by positivity
    calc (d : Int) * 10 ^ rest.length + digitsVal rest
        < (d : Int) * 10 ^ rest.length + 10 ^ rest.length := by linarith
      _ = ((d : Int) + 1) * 10 ^ rest.length := by ring
      _ ≤ 10 * 10 ^ rest.length :=
          mul_le_mul_of_nonneg_right (by linarith) h3.le
      _ = 10 ^ (rest.length + 1) := by rw [pow_succ]; ring

theorem pow10_le_of_le {a b : Nat} (h : a ≤ b) :
    (10 : Int) ^ a ≤ 10 ^ b :=
  pow_le_pow_right (by norm_num) h

theorem runesToNumAux_render (ds : List Nat) (hds : ∀ d ∈ ds, d < 10)
    (hlen : ds.length ≤ 18) :
    runesToNumAux (renderDigits ds) = (digitsVal ds, 10 ^ ds.length) := by
  induction ds with
  | nil => simp [renderDigits, runesToNumAux, digitsVal]
  | cons d rest ih =>
    have hd : d < 10 := hds d (List.mem_cons_self _ _)
    have hrest : ∀ x ∈ rest, x < 10 := fun x hx => hds x (List.mem_cons_of_mem _ hx)
    have hrl : rest.length ≤ 17 := by
      simp only [List.length_cons] at hlen
      omega
    rw [renderDigits, List.map_cons]
    rw [runesToNumAux]
    have hrw : renderDigits rest = rest.map (fun d => Char.ofNat (48 + d)) := rfl
    rw [← hrw, ih hrest (by omega)]
    have htn : ((Char.ofNat (48 + d)).toNat : Int) = 48 + (d : Int) := by
      rw [toNat_digitChar d hd]
      push_cast
      ring
    have h48 : ('0'.toNat : Int) = 48 := by decide
    have h1 : (d : Int) ≤ 9 := by exact_mod_cast Nat.lt_succ_iff.mp hd
    have hd0 : (0 : Int) ≤ (d : Int) := Int.natCast_nonneg d
    have hp0 : (0 : Int) < 10 ^ rest.length := by positivity
    have hp17 : (10 : Int) ^ rest.length ≤ 10 ^ 17 := pow10_le_of_le hrl
    have h63 : (9 : Int) * 10 ^ 17 < 2 ^ 63 := by norm_num
    have hmul : mul64 (48 + (d : Int) - 48) (10 ^ rest.length) =
        (d : Int) * 10 ^ rest.length := by
      have he : (48 : Int) + (d : Int) - 48 = (d : Int) := by ring
      rw [mul64, he]
      apply wrap64_eq_self
      · have := mul_nonneg hd0 hp0.le
        have hpos : (0 : Int) < 2 ^ 63 := by positivity
        linarith
      · calc (d : Int) * 10 ^ rest.length ≤ 9 * 10 ^ 17 :=
            mul_le_mul h1 hp17 hp0.le (by norm_num)
          _ < 2 ^ 63 := h63
    have hdv : digitsVal (d :: rest) = (d : Int) * 10 ^ rest.length + digitsVal rest := by
      rw [digitsVal, List.foldl_cons, digitsVal_foldl]
      ring
    have hvlt : digitsVal rest < 10 ^ rest.length := digitsVal_lt rest hrest
    have hv0 : 0 ≤ digitsVal rest := digitsVal_nonneg rest
    have hp18 : (10 : Int) ^ (rest.length + 1) ≤ 10 ^ 18 :=
      pow10_le_of_le (by omega)
    have h18 : (10 : Int) ^ 18 < 2 ^ 63 := by norm_num
    have hadd : add64 (digitsVal rest) ((d : Int) * 10 ^ rest.length) =
        digitsVal rest + (d : Int) * 10 ^ rest.length := by
      rw [add64]
      apply wrap64_eq_self
      · have := mul_nonneg hd0 hp0.le
        have hpos : (0 : Int) < 2 ^ 63 := by positivity
        linarith
      · have hlt : digitsVal rest + (d : Int) * 10 ^ rest.length <
            10 ^ (rest.length + 1) := by
          have : ((d : Int) + 1) * 10 ^ rest.length ≤ 10 * 10 ^ rest.length :=
            mul_le_mul_of_nonneg_right (by linarith) hp0.le
          rw [pow_succ]
          nlinarith
        linarith
    have hm10 : mul64 (10 ^ rest.length) 10 = 10 ^ (rest.length + 1) := by
      rw [mul64, mul_comm, ← pow_succ']
      apply wrap64_eq_self
      · have hpos : (0 : Int) < 2 ^ 63 := by positivity
        have : (0 : Int) < 10 ^ (rest.length + 1) := by positivity
        linarith
      · linarith
    simp only [htn, h48, hmul, hadd, hdv, hm10, List.length_cons, Prod.mk.injEq]
    constructor
    · ring
    · trivial

theorem runesToNum_render (ds : List Nat) (hds : ∀ d ∈ ds, d < 10)
    (hlen : ds.length ≤ 18) :
    runesToNum (renderDigits ds) = digitsVal ds := by
  rw [runesToNum, runesToNumAux_render ds hds hlen]

theorem durAux_digits (ds : List Nat) (hds : ∀ d ∈ ds, d < 10) :
    ∀ (rest : List Char) (n : Int) (num : List Char),
      durAux (renderDigits ds ++ rest) n num = durAux rest n (num ++ renderDigits ds) := by
  induction ds with
  | nil => intro rest n num; simp [renderDigits]
  | cons d tail ih =>
    intro rest n num
    have hd : d < 10 := hds d (List.mem_cons_self _ _)
    have htail : ∀ x ∈ tail, x < 10 := fun x hx => hds x (List.mem_cons_of_mem _ hx)
    rw [renderDigits, List.map_cons, List.cons_append, durAux,
      unitSeconds_digitChar d hd]
    have hrw : renderDigits tail = tail.map (fun d => Char.ofNat (48 + d)) := rfl
    rw [← hrw, ih htail rest n (num ++ [Char.ofNat (48 + d)]), List.append_assoc]
    rfl

theorem durAux_unit (u : Char) (m : Int) (hu : unitSeconds u = some m)
    (rest : List Char) (n : Int) (num : List Char) :
    durAux (u :: rest) n num =
      durAux rest (add64 n (mul64 (runesToNum num) m)) [] := by
  rw [durAux, hu]

theorem unitSeconds_pos (u : Char) (hu : u ∈ unitList) :
    ∃ m, unitSeconds u = some m ∧ 1 ≤ m := by
  simp only [unitList, List.mem_cons, List.not_mem_nil, or_false] at hu
  rcases hu with h | h | h | h | h <;> (rw [h]; exact ⟨_, rfl, by norm_num⟩)

theorem durSum_nonneg (ps : List (List Nat × Char))
    (hps : ∀ p ∈ ps, (∀ d ∈ p.1, d < 10) ∧ p.1.length ≤ 18 ∧ p.2 ∈ unitList) :
    0 ≤ durSum ps := by
  induction ps with
  | nil => exact le_refl 0
  | cons p rest ih =>
    obtain ⟨hdig, hlen, hu⟩ := hps p (List.mem_cons_self _ _)
    have hrest : ∀ q ∈ rest, (∀ d ∈ q.1, d < 10) ∧ q.1.length ≤ 18 ∧ q.2 ∈ unitList :=
      fun q hq => hps q (List.mem_cons_of_mem _ hq)
    obtain ⟨m, hm, hm1⟩ := unitSeconds_pos p.2 hu
    have hgd : (unitSeconds p.2).getD 0 = m := by rw [hm]; rfl
    have hsum : durSum (p :: rest) = digitsVal p.1 * m + durSum rest := by
      simp only [durSum, List.map_cons, List.sum_cons, hgd]
    rw [hsum]
    have h1 : 0 ≤ digitsVal p.1 * m :=
      mul_nonneg (digitsVal_nonneg p.1) (by linarith)
    have h2 := ih hrest
    linarith

theorem durAux_render (ps : List (List Nat × Char))
    (hps : ∀ p ∈ ps, (∀ d ∈ p.1, d < 10) ∧ p.1.length ≤ 18 ∧ p.2 ∈ unitList) :
    ∀ n : Int, 0 ≤ n → n + durSum ps < 2 ^ 63 →
      durAux (renderDur ps) n [] = n + durSum ps := by
  induction ps with
  | nil => intro n _ _; simp [renderDur, durSum, durAux]
  | cons p rest ih =>
    intro n hn hbound
    obtain ⟨hdig, hlen, hu⟩ := hps p (List.mem_cons_self _ _)
    have hrest : ∀ q ∈ rest, (∀ d ∈ q.1, d < 10) ∧ q.1.length ≤ 18 ∧ q.2 ∈ unitList :=
      fun q hq => hps q (List.mem_cons_of_mem _ hq)
    obtain ⟨m, hm, hm1⟩ := unitSeconds_pos p.2 hu
    have hflat : renderDur (p :: rest) =
        renderDigits p.1 ++ (p.2 :: renderDur rest) := by
      rw [renderDur, List.map_cons, List.flatten_cons, List.append_assoc,
        List.singleton_append]
      rfl
    have hgd : (unitSeconds p.2).getD 0 = m := by rw [hm]; rfl
    have hsum : durSum (p :: rest) = digitsVal p.1 * m + durSum rest := by
      simp only [durSum, List.map_cons, List.sum_cons, hgd]
    have hterm0 : 0 ≤ digitsVal p.1 * m :=
      mul_nonneg (digitsVal_nonneg p.1) (by linarith)
    have hrs0 : 0 ≤ durSum rest := durSum_nonneg rest hrest
    have hall : n + (digitsVal p.1 * m + durSum rest) < 2 ^ 63 := by
      rw [hsum] at hbound
      linarith
    have hpos : (0 : Int) < 2 ^ 63 := by positivity
    have hmul : mul64 (digitsVal p.1) m = digitsVal p.1 * m := by
      rw [mul64]
      exact wrap64_eq_self (by linarith) (by linarith)
    have hadd : add64 n (digitsVal p.1 * m) = n + digitsVal p.1 * m := by
      rw [add64]
      exact wrap64_eq_self (by linarith) (by linarith)
    rw [hflat, durAux_digits p.1 hdig, List.nil_append,
      durAux_unit p.2 m hm, runesToNum_render p.1 hdig hlen, hmul, hadd,
      ih hrest (n + digitsVal p.1 * m) (by linarith) (by linarith)]
    rw [hsum]
    ring

theorem renderDur_ne_empty_ne_na (p : List Nat × Char) (rest : List (List Nat × Char))
    (hdig : ∀ d ∈ p.1, d < 10) (hu : p.2 ∈ unitList) :
    ¬ (renderDur (p :: rest) = [] ∨ renderDur (p :: rest) = NAValue) := by
  have hflat : renderDur (p :: rest) =
      renderDigits p.1 ++ (p.2 :: renderDur rest) := by
    rw [renderDur, List.map_cons, List.flatten_cons, List.append_assoc,
      List.singleton_append]
    rfl
  have hune : p.2 ≠ 'n' := by
    simp only [unitList, List.mem_cons, List.not_mem_nil, or_false] at hu
    rcases hu with h | h | h | h | h <;> (rw [h]; decide)
  rintro (h | h)
  · rw [hflat] at h
    rcases List.append_eq_nil.mp h with ⟨-, h2⟩
    exact List.noConfusion h2
  · rw [hflat] at h
    cases hp1 : p.1 with
    | nil =>
      rw [hp1] at h
      simp only [renderDigits, List.map_nil, List.nil_append] at h
      have := List.head_eq_of_cons_eq h
      exact hune this
    | cons d ds =>
      have hd : d < 10 := by
        apply hdig
        rw [hp1]
        exact List.mem_cons_self _ _
      rw [hp1] at h
      simp only [renderDigits, List.map_cons, List.cons_append] at h
      have := List.head_eq_of_cons_eq h
      exact digitChar_ne_n d hd this

set_option maxRecDepth 40000 in
/-- C5 counterexample: durationToSeconds computes in Go's wrapping int64,
so it does not sum digit-run times unit for every digit run: the 20-digit
run 99999999999999999999 followed by s, a well-formed digits-then-unit
string, parses to the wrapped value 7766279631452241919 instead of the
mathematical sum of 99999999999999999999 seconds. -/
theorem C5_durationToSeconds_wrap_counterexample :
    (∀ p ∈ [(List.replicate 20 9, 's')], (∀ d ∈ p.1, d < 10) ∧ p.2 ∈ unitList)
    ∧ durationToSeconds (renderDur [(List.replicate 20 9, 's')]) =
        7766279631452241919
    ∧ durSum [(List.replicate 20 9, 's')] = 99999999999999999999
    ∧ durationToSeconds (renderDur [(List.replicate 20 9, 's')]) ≠
        durSum [(List.replicate 20 9, 's')] := by
  refine ⟨by decide, by decide, by decide, by decide⟩

set_option maxRecDepth 40000 in
/-- C5 amended: durationToSeconds maps the empty string and the n/a
placeholder to zero, and parses any string of digit-runs followed by unit
suffixes y, d, h, m, s to the sum of each run times its unit's seconds
provided the arithmetic stays inside int64: digit runs of at most 18
digits and a total below 2^63 seconds (beyond that the int64 accumulation
wraps); consequently duration-mode Less orders 90m before 5h before 2d. -/
theorem C5_durationToSeconds_amended :
    durationToSeconds [] = 0
    ∧ durationToSeconds NAValue = 0
    ∧ (∀ ps : List (List Nat × Char),
        (∀ p ∈ ps, (∀ d ∈ p.1, d < 10) ∧ p.1.length ≤ 18 ∧ p.2 ∈ unitList) →
        durSum ps < 2 ^ 63 →
        durationToSeconds (renderDur ps) = durSum ps)
    ∧ (Less false true false ['a'] ['b'] ['9', '0', 'm'] ['5', 'h'] = true
       ∧ Less false true false ['a'] ['b'] ['5', 'h'] ['2', 'd'] = true
       ∧ Less false true false ['b'] ['a'] ['5', 'h'] ['9', '0', 'm'] = false
       ∧ Less false true false ['b'] ['a'] ['2', 'd'] ['5', 'h'] = false) := by
  refine ⟨rfl, rfl, ?_, by decide, by decide, by decide, by decide⟩
  intro ps hps hbound
  cases ps with
  | nil => rfl
  | cons p rest =>
    obtain ⟨hdig, hlen, hu⟩ := hps p (List.mem_cons_self _ _)
    rw [durationToSeconds, if_neg (renderDur_ne_empty_ne_na p rest hdig hu),
      durAux_render (p :: rest) hps 0 (le_refl 0) (by linarith)]
    ring

set_option maxRecDepth 40000 in
/-- Witness for C5 amended at the concrete duration string 1y2d3h4m5s. -/
theorem C5_durationToSeconds_amended_witness :
    (let ps : List (List Nat × Char) :=
      [([1], 'y'), ([2], 'd'), ([3], 'h'), ([4], 'm'), ([5], 's')]
     ((∀ p ∈ ps, (∀ d ∈ p.1, d < 10) ∧ p.1.length ≤ 18 ∧ p.2 ∈ unitList)
       ∧ durSum ps < 2 ^ 63)
     ∧ durationToSeconds (renderDur ps) = durSum ps) :=
  ⟨⟨by decide, by decide⟩,
    C5_durationToSeconds_amended.2.2.1 _ (by decide) (by decide)⟩

/-! ### C4: the ordering contract of Less -/

theorem Less_of_ne (b1 b2 b3 : Bool) (id1 id2 : GoStr) {v1 v2 : GoStr}
    (hv : v1 ≠ v2) :
    Less b1 b2 b3 id1 id2 v1 v2 =
      (if b1 then lessNumber v1 v2
       else if b2 then lessDuration v1 v2
       else if b3 then lessCapacity v1 v2
       else natLess v1 v2) := by
  rw [Less_eq, if_neg hv]

theorem Less_tie_ne (b1 b2 b3 : Bool) {id1 id2 v1 v2 : GoStr}
    (hv : v1 = v2) (hid : id1 ≠ id2) :
    Less b1 b2 b3 id1 id2 v1 v2 ≠ Less b1 b2 b3 id2 id1 v2 v1 := by
  rw [Less_eq, if_pos hv, Less_eq, if_pos hv.symm]
  exact natLess_exactly_one hid

theorem decide_le_asym {a b : Int} (h : a ≠ b) :
    decide (a ≤ b) ≠ decide (b ≤ a) := by
  by_cases hab : a < b
  · simp [hab.le, not_le.mpr hab]
  · have hba : b < a := lt_of_le_of_ne (le_of_not_lt hab) h.symm
    simp [hba.le, not_le.mpr hba]

set_option maxRecDepth 40000 in
/-- C4 counterexample: Less is not a deterministic strict total order in
every mode.  In duration mode the distinct pairs (1m, a) and (60s, b)
compare true in both directions, because lessDuration uses less-or-equal on
the parsed second counts and both strings parse to 60 seconds; in number
mode the distinct pairs with values 1,0 and 10 compare false in both
directions, because comma stripping collapses the two values. -/
theorem C4_Less_not_strict_total_counterexample :
    (Less false true false ['a'] ['b'] ['1', 'm'] ['6', '0', 's'] = true
     ∧ Less false true false ['b'] ['a'] ['6', '0', 's'] ['1', 'm'] = true)
    ∧ (Less true false false ['a'] ['b'] ['1', ',', '0'] ['1', '0'] = false
       ∧ Less true false false ['b'] ['a'] ['1', '0'] ['1', ',', '0'] = false) := by
  refine ⟨⟨by decide, by decide⟩, ?_, ?_⟩
  · rw [Less_of_ne _ _ _ _ _ (by decide), if_pos rfl, lessNumber]
    have h1 : stripCommas ['1', ',', '0'] = ['1', '0'] := by decide
    have h2 : stripCommas ['1', '0'] = ['1', '0'] := by decide
    rw [h1, h2]
    exact natLess_irrefl _
  · rw [Less_of_ne _ _ _ _ _ (by decide), if_pos rfl, lessNumber]
    have h1 : stripCommas ['1', ',', '0'] = ['1', '0'] := by decide
    have h2 : stripCommas ['1', '0'] = ['1', '0'] := by decide
    rw [h1, h2]
    exact natLess_irrefl _

/-- C4 amended: whenever v1 equals v2, Less returns the natural-order
comparison of id1 and id2, in every mode; and for two distinct (value,
identifier) pairs exactly one of Less(a, b) and Less(b, a) is true in the
default and capacity modes, in number mode provided the comma-stripped
values differ (or the values are equal strings and the identifiers differ),
and in duration mode provided the parsed second counts differ (or the
values are equal strings and the identifiers differ); distinct values of
equal measure compare unordered in the number and duration modes, so Less
is a strict total order only in the default and capacity modes. -/
theorem C4_Less_order_amended (b1 b2 b3 : Bool) (id1 id2 v1 v2 : GoStr) :
    (v1 = v2 → Less b1 b2 b3 id1 id2 v1 v2 = natLess id1 id2)
    ∧ (b1 = false → b2 = false → (v1 ≠ v2 ∨ id1 ≠ id2) →
        Less b1 b2 b3 id1 id2 v1 v2 ≠ Less b1 b2 b3 id2 id1 v2 v1)
    ∧ (b1 = true → (stripCommas v1 ≠ stripCommas v2 ∨ (v1 = v2 ∧ id1 ≠ id2)) →
        Less b1 b2 b3 id1 id2 v1 v2 ≠ Less b1 b2 b3 id2 id1 v2 v1)
    ∧ (b1 = false → b2 = true →
        (durationToSeconds v1 ≠ durationToSeconds v2 ∨ (v1 = v2 ∧ id1 ≠ id2)) →
        Less b1 b2 b3 id1 id2 v1 v2 ≠ Less b1 b2 b3 id2 id1 v2 v1) := by
  refine ⟨fun hv => by rw [Less_eq, if_pos hv], ?_, ?_, ?_⟩
  · intro hb1 hb2 hd
    subst hb1
    subst hb2
    by_cases hv : v1 = v2
    · rcases hd with h | h
      · exact absurd hv h
      · exact Less_tie_ne false false b3 hv h
    · have hv2 : v2 ≠ v1 := fun hh => hv hh.symm
      rw [Less_of_ne _ _ _ _ _ hv, Less_of_ne _ _ _ _ _ hv2,
        if_neg Bool.false_ne_true, if_neg Bool.false_ne_true,
        if_neg Bool.false_ne_true, if_neg Bool.false_ne_true]
      cases b3 with
      | false =>
        rw [if_neg Bool.false_ne_true, if_neg Bool.false_ne_true]
        exact natLess_exactly_one hv
      | true =>
        rw [if_pos rfl, if_pos rfl, lessCapacity, lessCapacity]
        exact natLess_exactly_one hv
  · intro hb1 hd
    subst hb1
    rcases hd with hs | ⟨hv, hid⟩
    · have hv : v1 ≠ v2 := fun hh => hs (by rw [hh])
      have hv2 : v2 ≠ v1 := fun hh => hv hh.symm
      rw [Less_of_ne _ _ _ _ _ hv, Less_of_ne _ _ _ _ _ hv2,
        if_pos rfl, if_pos rfl, lessNumber, lessNumber]
      exact natLess_exactly_one hs
    · exact Less_tie_ne true b2 b3 hv hid
  · intro hb1 hb2
    subst hb1
    subst hb2
    intro hd
    rcases hd with hs | ⟨hv, hid⟩
    · have hv : v1 ≠ v2 := fun hh => hs (by rw [hh])
      have hv2 : v2 ≠ v1 := fun hh => hv hh.symm
      rw [Less_of_ne _ _ _ _ _ hv, Less_of_ne _ _ _ _ _ hv2,
        if_neg Bool.false_ne_true, if_neg Bool.false_ne_true,
        if_pos rfl, if_pos rfl, lessDuration, lessDuration]
      exact decide_le_asym hs
    · exact Less_tie_ne false true b3 hv hid

/-- Witness for C4 amended: equal values tie-break to the natural order of
the identifiers, and in default mode the distinct values 1 and 2 compare in
exactly one direction. -/
theorem C4_Less_order_amended_witness :
    ((['1'] : GoStr) = ['1']
      ∧ Less false false false ['a'] ['b'] ['1'] ['1'] = natLess ['a'] ['b'])
    ∧ ((['1'] : GoStr) ≠ ['2']
      ∧ Less false false false ['a'] ['b'] ['1'] ['2'] ≠
          Less false false false ['b'] ['a'] ['2'] ['1']) :=
  ⟨⟨rfl, (C4_Less_order_amended false false false ['a'] ['b'] ['1'] ['1']).1 rfl⟩,
   ⟨by decide, (C4_Less_order_amended false false false ['a'] ['b'] ['1'] ['2']).2.1
      rfl rfl (Or.inl (by decide))⟩⟩

/-! ## TTL cache: aws.ResourceCache

Time instants and durations are integers handed to each operation where the
Go code reads time.Now().  The Go map of entries is an association list in
insertion order with unique keys; map insertion replaces in place or
appends, map deletion filters by key.  The eviction scan visits entries in
list order, standing in for Go's unspecified map iteration order; the
claims proved about eviction either do not depend on the visit order or
assume pairwise-distinct timestamps, which make the minimum unique. -/

/-- Embeds aws.CacheEntry; the value type parameterizes interface left open. -/
structure CacheEntry (α : Type) where
  value : α
  timestamp : Int
  ttl : Int
  refreshAt : Int
deriving DecidableEq, Repr

/-- Embeds aws.CacheConfig. -/
structure CacheConfig where
  defaultTTL : Int
  maxEntries : Int
deriving DecidableEq, Repr

/-- Embeds aws.ResourceCache (entries map plus configuration). -/
structure ResourceCache (α : Type) where
  entries : List (GoStr × CacheEntry α)
  defaultTTL : Int
  maxEntries : Int
deriving DecidableEq, Repr

/-- Embeds aws.NewResourceCache: defaults of five seconds and a thousand
entries, overridden by any positive configured value. -/
def newResourceCache (α : Type) (cfg : Option CacheConfig) : ResourceCache α :=
  { entries := []
    defaultTTL :=
      match cfg with
      | none => 5
      | some c => if c.defaultTTL > 0 then c.defaultTTL else 5
    maxEntries :=
      match cfg with
      | none => 1000
      | some c => if c.maxEntries > 0 then c.maxEntries else 1000 }

/-- Go map read c.entries[key]. -/
def lookup {α : Type} (c : ResourceCache α) (key : GoStr) : Option (CacheEntry α) :=
  (c.entries.find? (fun kv => kv.1 == key)).map (fun kv => kv.2)

/-- Embeds aws.ResourceCache.Get: a missing key misses, and so does an
entry whose RefreshAt instant lies strictly before now (time.Now().After is
a strict comparison). -/
def Get {α : Type} (c : ResourceCache α) (key : GoStr) (now : Int) : Option α × Bool :=
  match lookup c key with
  | none => (none, false)
  | some entry =>
    if now > entry.refreshAt then (none, false)
    else (some entry.value, true)

/-- One step of the eviction scan in aws.ResourceCache.SetWithTTL: the
first entry seen is taken (the first flag in the source), and a strictly
older timestamp displaces the current candidate (Before is strict). -/
def oldestScan {α : Type} (acc : Option (GoStr × CacheEntry α))
    (kv : GoStr × CacheEntry α) : Option (GoStr × CacheEntry α) :=
  match acc with
  | none => some kv
  | some best =>
    if kv.2.timestamp < best.2.timestamp then some kv else some best

/-- The eviction scan of aws.ResourceCache.SetWithTTL, yielding the empty
string on an empty map exactly as the zero-valued oldestKey does. -/
def findOldestKey {α : Type} (entries : List (GoStr × CacheEntry α)) : GoStr :=
  match entries.foldl oldestScan none with
  | none => []
  | some best => best.1

/-- Go map delete. -/
def eraseKey {α : Type} (entries : List (GoStr × CacheEntry α)) (key : GoStr) :
    List (GoStr × CacheEntry α) :=
  entries.filter (fun kv => !(kv.1 == key))

/-- Go map write c.entries[key] = e: replace in place, else append. -/
def insertEntry {α : Type} (entries : List (GoStr × CacheEntry α)) (key : GoStr)
    (e : CacheEntry α) : List (GoStr × CacheEntry α) :=
  if entries.any (fun kv => kv.1 == key) then
    entries.map (fun kv => if kv.1 = key then (key, e) else kv)
  else entries ++ [(key, e)]

/-- Embeds aws.ResourceCache.SetWithTTL: when the store is at or above
capacity, find the oldest entry and delete it unless its key is the empty
string, then insert the new entry stamped with now and expiring at
now plus ttl. -/
def SetWithTTL {α : Type} (c : ResourceCache α) (key : GoStr) (value : α)
    (ttl now : Int) : ResourceCache α :=
  let entries1 :=
    if (c.entries.length : Int) ≥ c.maxEntries then
      (let oldestKey := findOldestKey c.entries
       if oldestKey ≠ [] then eraseKey c.entries oldestKey else c.entries)
    else c.entries
  { c with entries := insertEntry entries1 key ⟨value, now, ttl, now + ttl⟩ }

/-- Embeds aws.ResourceCache.Set: SetWithTTL at the default TTL. -/
def Set {α : Type} (c : ResourceCache α) (key : GoStr) (value : α) (now : Int) :
    ResourceCache α :=
  SetWithTTL c key value c.defaultTTL now

/-- Embeds aws.ResourceCache.Delete. -/
def Delete {α : Type} (c : ResourceCache α) (key : GoStr) : ResourceCache α :=
  { c with entries := eraseKey c.entries key }

/-- Embeds aws.ResourceCache.DeletePrefix: an empty pattern removes nothing
and reports zero, otherwise every entry whose key extends the pattern is
removed and counted. -/
def deletePfx {α : Type} (c : ResourceCache α) (pfx : GoStr) :
    ResourceCache α × Nat :=
  if pfx = [] then (c, 0)
  else
    ({ c with entries := c.entries.filter (fun kv => !(pfx.isPrefixOf kv.1)) },
     (c.entries.filter (fun kv => pfx.isPrefixOf kv.1)).length)

/-- Embeds aws.ResourceCache.Invalidate. -/
def Invalidate {α : Type} (c : ResourceCache α) : ResourceCache α :=
  { c with entries := [] }

/-- Embeds aws.ResourceCache.Clear (delegates to Invalidate). -/
def Clear {α : Type} (c : ResourceCache α) : ResourceCache α :=
  Invalidate c

/-- One mutating call against the cache, with the time.Now() reading of the
call attached where the source reads the clock. -/
inductive CacheOp (α : Type) where
  | set (key : GoStr) (value : α) (now : Int)
  | setWithTTL (key : GoStr) (value : α) (ttl now : Int)
  | del (key : GoStr)
  | delPfx (pfx : GoStr)
  | invalidate

def applyCacheOp {α : Type} (c : ResourceCache α) : CacheOp α → ResourceCache α
  | .set k v now => Set c k v now
  | .setWithTTL k v ttl now => SetWithTTL c k v ttl now
  | .del k => Delete c k
  | .delPfx p => (deletePfx c p).1
  | .invalidate => Invalidate c

def runCache {α : Type} (c : ResourceCache α) (ops : List (CacheOp α)) :
    ResourceCache α :=
  ops.foldl applyCacheOp c

/-- The inserted keys of an operation list avoid the empty string. -/
def opKeyNonempty {α : Type} : CacheOp α → Bool
  | .set k _ _ => !(k == [])
  | .setWithTTL k _ _ _ => !(k == [])
  | _ => true

/-- The key column of the entries list. -/
def keysOf {α : Type} (l : List (GoStr × CacheEntry α)) : List GoStr :=
  l.map Prod.fst

theorem oldestScan_foldl_some {α : Type} :
    ∀ (l : List (GoStr × CacheEntry α)) (best : GoStr × CacheEntry α),
    ∃ r, l.foldl oldestScan (some best) = some r
      ∧ (r = best ∨ r ∈ l)
      ∧ r.2.timestamp ≤ best.2.timestamp
      ∧ ∀ kv ∈ l, r.2.timestamp ≤ kv.2.timestamp := by
  intro l
  induction l with
  | nil =>
    intro best
    exact ⟨best, rfl, Or.inl rfl, le_refl _, by simp⟩
  | cons kv rest ih =>
    intro best
    rw [List.foldl_cons]
    by_cases hlt : kv.2.timestamp < best.2.timestamp
    · obtain ⟨r, hr, hmem, hle, hall⟩ := ih kv
      have hstep : oldestScan (some best) kv = some kv := by
        simp only [oldestScan]
        rw [if_pos hlt]
      refine ⟨r, by rw [hstep]; exact hr, ?_, le_trans hle (le_of_lt hlt), ?_⟩
      · rcases hmem with rfl | h
        · exact Or.inr (List.mem_cons_self _ _)
        · exact Or.inr (List.mem_cons_of_mem _ h)
      · intro x hx
        rcases List.mem_cons.mp hx with rfl | hx2
        · exact hle
        · exact hall x hx2
    · obtain ⟨r, hr, hmem, hle, hall⟩ := ih best
      have hstep : oldestScan (some best) kv = some best := by
        simp only [oldestScan]
        rw [if_neg hlt]
      refine ⟨r, by rw [hstep]; exact hr, ?_, hle, ?_⟩
      · rcases hmem with rfl | h
        · exact Or.inl rfl
        · exact Or.inr (List.mem_cons_of_mem _ h)
      · intro x hx
        rcases List.mem_cons.mp hx with rfl | hx2
        · exact le_trans hle (le_of_not_lt hlt)
        · exact hall x hx2

theorem findOldestKey_spec {α : Type} (l : List (GoStr × CacheEntry α))
    (hne : l ≠ []) :
    ∃ e, (findOldestKey l, e) ∈ l ∧ ∀ kv ∈ l, e.timestamp ≤ kv.2.timestamp := by
  cases l with
  | nil => exact absurd rfl hne
  | cons kv rest =>
    obtain ⟨r, hr, hmem, hle, hall⟩ := oldestScan_foldl_some rest kv
    have hfk : findOldestKey (kv :: rest) = r.1 := by
      rw [findOldestKey, List.foldl_cons]
      have h0 : oldestScan (none : Option (GoStr × CacheEntry α)) kv = some kv := rfl
      rw [h0, hr]
    refine ⟨r.2, ?_, ?_⟩
    · rw [hfk]
      have hpair : ((r.1 : GoStr), r.2) = r := rfl
      rw [hpair]
      rcases hmem with rfl | h
      · exact List.mem_cons_self _ _
      · exact List.mem_cons_of_mem _ h
    · intro x hx
      rcases List.mem_cons.mp hx with rfl | hx2
      · exact hle
      · exact hall x hx2

theorem any_key_iff_mem_keys {α : Type} (l : List (GoStr × CacheEntry α))
    (k : GoStr) : l.any (fun kv => kv.1 == k) = true ↔ k ∈ keysOf l := by
  rw [List.any_eq_true, keysOf]
  constructor
  · rintro ⟨kv, hmem, hk⟩
    have : kv.1 = k := by simpa using hk
    exact this ▸ List.mem_map_of_mem _ hmem
  · intro hmem
    obtain ⟨kv, hkv, hk⟩ := List.mem_map.mp hmem
    exact ⟨kv, hkv, by simp [hk]⟩

theorem keysOf_insertEntry_present {α : Type} (l : List (GoStr × CacheEntry α))
    (k : GoStr) (e : CacheEntry α) (hk : k ∈ keysOf l) :
    keysOf (insertEntry l k e) = keysOf l := by
  rw [insertEntry, if_pos ((any_key_iff_mem_keys l k).mpr hk), keysOf,
    List.map_map]
  apply List.map_congr_left
  intro kv _
  by_cases hkv : kv.1 = k
  · simp [hkv]
  · simp [hkv]

theorem insertEntry_absent {α : Type} (l : List (GoStr × CacheEntry α))
    (k : GoStr) (e : CacheEntry α) (hk : k ∉ keysOf l) :
    insertEntry l k e = l ++ [(k, e)] := by
  rw [insertEntry, if_neg]
  intro hany
  exact hk ((any_key_iff_mem_keys l k).mp hany)

theorem length_insertEntry_present {α : Type} (l : List (GoStr × CacheEntry α))
    (k : GoStr) (e : CacheEntry α) (hk : k ∈ keysOf l) :
    (insertEntry l k e).length = l.length := by
  rw [insertEntry, if_pos ((any_key_iff_mem_keys l k).mpr hk), List.length_map]

theorem eraseKey_of_not_mem {α : Type} (l : List (GoStr × CacheEntry α))
    (k : GoStr) (hk : k ∉ keysOf l) : eraseKey l k = l := by
  rw [eraseKey, List.filter_eq_self]
  intro kv hkv
  have hne : kv.1 ≠ k := fun hh => hk (hh ▸ List.mem_map_of_mem _ hkv)
  simp [hne]

theorem length_eraseKey_mem {α : Type} :
    ∀ l : List (GoStr × CacheEntry α), ∀ k : GoStr,
    (keysOf l).Nodup → k ∈ keysOf l → (eraseKey l k).length + 1 = l.length := by
  intro l
  induction l with
  | nil => intro k _ hk; simp [keysOf] at hk
  | cons kv rest ih =>
    intro k hnd hk
    have hnd2 : (keysOf rest).Nodup := (List.nodup_cons.mp hnd).2
    have hhd : kv.1 ∉ keysOf rest := (List.nodup_cons.mp hnd).1
    by_cases hkv : kv.1 = k
    · have herase : eraseKey (kv :: rest) k = eraseKey rest k := by
        rw [eraseKey, List.filter_cons]
        have : (!(kv.1 == k)) = false := by simp [hkv]
        rw [this]
        rfl
      have hrest : eraseKey rest k = rest := by
        apply eraseKey_of_not_mem
        rw [← hkv]
        exact hhd
      rw [herase, hrest]
      simp
    · have herase : eraseKey (kv :: rest) k = kv :: eraseKey rest k := by
        rw [eraseKey, List.filter_cons]
        have : (!(kv.1 == k)) = true := by simp [hkv]
        rw [this]
        rfl
      have hkrest : k ∈ keysOf rest := by
        rcases List.mem_cons.mp hk with h | h
        · exact absurd h.symm hkv
        · exact h
      rw [herase]
      simp only [List.length_cons]
      rw [← ih k hnd2 hkrest]

theorem eraseKey_sublist {α : Type} (l : List (GoStr × CacheEntry α))
    (k : GoStr) : (eraseKey l k).Sublist l :=
  List.filter_sublist l

theorem mem_eraseKey {α : Type} (l : List (GoStr × CacheEntry α)) (k : GoStr)
    (kv : GoStr × CacheEntry α) :
    kv ∈ eraseKey l k ↔ kv ∈ l ∧ kv.1 ≠ k := by
  rw [eraseKey, List.mem_filter]
  constructor
  · rintro ⟨hm, hb⟩
    refine ⟨hm, ?_⟩
    simpa using hb
  · rintro ⟨hm, hb⟩
    exact ⟨hm, by simp [hb]⟩

theorem not_mem_keys_eraseKey {α : Type} (l : List (GoStr × CacheEntry α))
    (k : GoStr) : k ∉ keysOf (eraseKey l k) := by
  intro hk
  obtain ⟨kv, hkv, hfst⟩ := List.mem_map.mp hk
  exact ((mem_eraseKey l k kv).mp hkv).2 hfst

theorem find_map_replace {α : Type} (k : GoStr) (e : CacheEntry α) :
    ∀ l : List (GoStr × CacheEntry α), k ∈ keysOf l →
    (l.map (fun kv => if kv.1 = k then (k, e) else kv)).find?
        (fun kv => kv.1 == k) = some (k, e) := by
  intro l
  induction l with
  | nil =>
    intro h
    simp [keysOf] at h
  | cons kv rest ih =>
    intro h
    rw [List.map_cons]
    by_cases hkv : kv.1 = k
    · rw [if_pos hkv, List.find?_cons_of_pos _ (by simp)]
    · rw [if_neg hkv, List.find?_cons_of_neg _ (by simp [hkv])]
      apply ih
      rcases List.mem_cons.mp h with h1 | h1
      · exact absurd h1.symm hkv
      · exact h1

theorem find_insertEntry_self {α : Type}
    (l : List (GoStr × CacheEntry α)) (k : GoStr) (e : CacheEntry α) :
    (insertEntry l k e).find? (fun kv => kv.1 == k) = some (k, e) := by
  rw [insertEntry]
  by_cases hany : l.any (fun kv => kv.1 == k) = true
  · rw [if_pos hany]
    exact find_map_replace k e l ((any_key_iff_mem_keys l k).mp hany)
  · rw [if_neg hany]
    have hnone : l.find? (fun kv => kv.1 == k) = none := by
      rw [List.find?_eq_none]
      intro kv hkv hb
      apply hany
      rw [List.any_eq_true]
      exact ⟨kv, hkv, hb⟩
    rw [List.find?_append, hnone]
    simp [List.find?]

/-- Well-formedness of a cache state as the Go map semantics guarantees it
when no caller ever uses the empty string as a key: keys unique and
non-empty, resident count within capacity, positive capacity. -/
def CacheInv {α : Type} (c : ResourceCache α) : Prop :=
  (keysOf c.entries).Nodup
  ∧ (∀ kv ∈ c.entries, kv.1 ≠ ([] : GoStr))
  ∧ ((c.entries.length : Int) ≤ c.maxEntries)
  ∧ 0 < c.maxEntries

instance {α : Type} [DecidableEq α] (c : ResourceCache α) :
    Decidable (CacheInv c) := by
  rw [CacheInv]
  infer_instance

theorem insertEntry_keys_nonempty {α : Type} (l : List (GoStr × CacheEntry α))
    (k : GoStr) (e : CacheEntry α) (hall : ∀ kv ∈ l, kv.1 ≠ ([] : GoStr))
    (hk : k ≠ []) : ∀ kv ∈ insertEntry l k e, kv.1 ≠ ([] : GoStr) := by
  intro kv hkv
  rw [insertEntry] at hkv
  by_cases hany : l.any (fun kv => kv.1 == k) = true
  · rw [if_pos hany] at hkv
    obtain ⟨kv0, hkv0, hmap⟩ := List.mem_map.mp hkv
    by_cases h0 : kv0.1 = k
    · rw [if_pos h0] at hmap
      rw [← hmap]
      exact hk
    · rw [if_neg h0] at hmap
      rw [← hmap]
      exact hall kv0 hkv0
  · rw [if_neg hany] at hkv
    rcases List.mem_append.mp hkv with h | h
    · exact hall kv h
    · rw [List.mem_singleton] at h
      rw [h]
      exact hk

theorem insertEntry_keys_nodup {α : Type} (l : List (GoStr × CacheEntry α))
    (k : GoStr) (e : CacheEntry α) (hnd : (keysOf l).Nodup) :
    (keysOf (insertEntry l k e)).Nodup := by
  by_cases hk : k ∈ keysOf l
  · rw [keysOf_insertEntry_present l k e hk]
    exact hnd
  · rw [insertEntry_absent l k e hk, keysOf, List.map_append]
    rw [List.nodup_append]
    refine ⟨hnd, List.nodup_singleton _, ?_⟩
    intro x hx hx2
    rw [List.map_singleton, List.mem_singleton] at hx2
    rw [hx2] at hx
    exact hk hx

theorem length_insertEntry_le {α : Type} (l : List (GoStr × CacheEntry α))
    (k : GoStr) (e : CacheEntry α) :
    (insertEntry l k e).length ≤ l.length + 1 := by
  rw [insertEntry]
  by_cases hany : l.any (fun kv => kv.1 == k) = true
  · rw [if_pos hany, List.length_map]
    omega
  · rw [if_neg hany, List.length_append]
    simp

theorem SetWithTTL_maxEntries {α : Type} (c : ResourceCache α) (k : GoStr)
    (v : α) (ttl now : Int) : (SetWithTTL c k v ttl now).maxEntries = c.maxEntries :=
  rfl

theorem SetWithTTL_entries_at_capacity {α : Type} (c : ResourceCache α)
    (k : GoStr) (v : α) (ttl now : Int)
    (hcap : (c.entries.length : Int) ≥ c.maxEntries)
    (hokne : findOldestKey c.entries ≠ []) :
    (SetWithTTL c k v ttl now).entries =
      insertEntry (eraseKey c.entries (findOldestKey c.entries)) k
        ⟨v, now, ttl, now + ttl⟩ := by
  simp only [SetWithTTL]
  rw [if_pos hcap, if_pos hokne]

theorem SetWithTTL_entries_below_capacity {α : Type} (c : ResourceCache α)
    (k : GoStr) (v : α) (ttl now : Int)
    (hcap : ¬ ((c.entries.length : Int) ≥ c.maxEntries)) :
    (SetWithTTL c k v ttl now).entries =
      insertEntry c.entries k ⟨v, now, ttl, now + ttl⟩ := by
  simp only [SetWithTTL]
  rw [if_neg hcap]

theorem SetWithTTL_entries_at_capacity_skip {α : Type} (c : ResourceCache α)
    (k : GoStr) (v : α) (ttl now : Int)
    (hcap : (c.entries.length : Int) ≥ c.maxEntries)
    (hok : ¬ findOldestKey c.entries ≠ []) :
    (SetWithTTL c k v ttl now).entries =
      insertEntry c.entries k ⟨v, now, ttl, now + ttl⟩ := by
  simp only [SetWithTTL]
  rw [if_pos hcap, if_neg hok]

theorem lookup_SetWithTTL_self {α : Type} (c : ResourceCache α) (k : GoStr)
    (v : α) (ttl now : Int) :
    lookup (SetWithTTL c k v ttl now) k =
      some (⟨v, now, ttl, now + ttl⟩ : CacheEntry α) := by
  rw [lookup]
  by_cases hcap : (c.entries.length : Int) ≥ c.maxEntries
  · by_cases hok : findOldestKey c.entries ≠ []
    · rw [SetWithTTL_entries_at_capacity c k v ttl now hcap hok,
        find_insertEntry_self]
      rfl
    · rw [SetWithTTL_entries_at_capacity_skip c k v ttl now hcap hok,
        find_insertEntry_self]
      rfl
  · rw [SetWithTTL_entries_below_capacity c k v ttl now hcap,
      find_insertEntry_self]
    rfl

theorem keysOf_sublist_of_sublist {α : Type}
    {l1 l2 : List (GoStr × CacheEntry α)} (h : l1.Sublist l2) :
    (keysOf l1).Sublist (keysOf l2) :=
  List.Sublist.map Prod.fst h

theorem SetWithTTL_preserves_inv {α : Type} (c : ResourceCache α) (k : GoStr)
    (v : α) (ttl now : Int) (hk : k ≠ ([] : GoStr)) (hInv : CacheInv c) :
    CacheInv (SetWithTTL c k v ttl now) := by
  obtain ⟨hnd, hne, hlen, hmax⟩ := hInv
  by_cases hcap : (c.entries.length : Int) ≥ c.maxEntries
  · have hEne : c.entries ≠ [] := by
      intro h
      rw [h] at hcap
      simp at hcap
      omega
    obtain ⟨e, hmem, hmin⟩ := findOldestKey_spec c.entries hEne
    have hokmem : findOldestKey c.entries ∈ keysOf c.entries :=
      List.mem_map_of_mem _ hmem
    have hokne : findOldestKey c.entries ≠ [] := hne _ hmem
    have hent := SetWithTTL_entries_at_capacity c k v ttl now hcap hokne
    have hndE : (keysOf (eraseKey c.entries (findOldestKey c.entries))).Nodup :=
      List.Nodup.sublist (keysOf_sublist_of_sublist (eraseKey_sublist _ _)) hnd
    have hneE : ∀ kv ∈ eraseKey c.entries (findOldestKey c.entries),
        kv.1 ≠ ([] : GoStr) :=
      fun kv hkv => hne kv ((mem_eraseKey _ _ kv).mp hkv).1
    have hlenE : (eraseKey c.entries (findOldestKey c.entries)).length + 1 =
        c.entries.length := length_eraseKey_mem c.entries _ hnd hokmem
    refine ⟨?_, ?_, ?_, ?_⟩
    · rw [hent]
      exact insertEntry_keys_nodup _ k _ hndE
    · rw [hent]
      exact insertEntry_keys_nonempty _ k _ hneE hk
    · rw [hent, SetWithTTL_maxEntries]
      have h1 := length_insertEntry_le
        (eraseKey c.entries (findOldestKey c.entries)) k
        (⟨v, now, ttl, now + ttl⟩ : CacheEntry α)
      have h2 : (c.entries.length : Int) ≤ c.maxEntries := hlen
      push_cast
      omega
    · rw [SetWithTTL_maxEntries]
      exact hmax
  · have hent := SetWithTTL_entries_below_capacity c k v ttl now hcap
    refine ⟨?_, ?_, ?_, ?_⟩
    · rw [hent]
      exact insertEntry_keys_nodup _ k _ hnd
    · rw [hent]
      exact insertEntry_keys_nonempty _ k _ hne hk
    · rw [hent, SetWithTTL_maxEntries]
      have h1 := length_insertEntry_le c.entries k
        (⟨v, now, ttl, now + ttl⟩ : CacheEntry α)
      push_cast
      push_cast at hcap
      omega
    · rw [SetWithTTL_maxEntries]
      exact hmax

theorem applyCacheOp_preserves_inv {α : Type} (c : ResourceCache α)
    (op : CacheOp α) (hop : opKeyNonempty op = true) (hInv : CacheInv c) :
    CacheInv (applyCacheOp c op)
      ∧ (applyCacheOp c op).maxEntries = c.maxEntries := by
  obtain ⟨hnd, hne, hlen, hmax⟩ := hInv
  cases op with
  | set k v now =>
    have hk : k ≠ ([] : GoStr) := by
      simp only [opKeyNonempty] at hop
      simpa using hop
    exact ⟨SetWithTTL_preserves_inv c k v c.defaultTTL now hk
      ⟨hnd, hne, hlen, hmax⟩, rfl⟩
  | setWithTTL k v ttl now =>
    have hk : k ≠ ([] : GoStr) := by
      simp only [opKeyNonempty] at hop
      simpa using hop
    exact ⟨SetWithTTL_preserves_inv c k v ttl now hk ⟨hnd, hne, hlen, hmax⟩, rfl⟩
  | del k =>
    have hred : applyCacheOp c (CacheOp.del k) =
        { c with entries := eraseKey c.entries k } := rfl
    rw [hred]
    refine ⟨⟨?_, ?_, ?_, hmax⟩, rfl⟩
    · exact List.Nodup.sublist
        (keysOf_sublist_of_sublist (eraseKey_sublist _ _)) hnd
    · exact fun kv hkv => hne kv ((mem_eraseKey _ _ kv).mp hkv).1
    · have := List.Sublist.length_le (eraseKey_sublist c.entries k)
      push_cast
      push_cast at hlen
      omega
  | delPfx p =>
    by_cases hp : p = []
    · have hred : applyCacheOp c (CacheOp.delPfx p) = c := by
        simp only [applyCacheOp, deletePfx, if_pos hp]
      rw [hred]
      exact ⟨⟨hnd, hne, hlen, hmax⟩, rfl⟩
    · have hred : applyCacheOp c (CacheOp.delPfx p) =
          { c with entries :=
              c.entries.filter (fun kv => !(p.isPrefixOf kv.1)) } := by
        simp only [applyCacheOp, deletePfx, if_neg hp]
      rw [hred]
      refine ⟨⟨?_, ?_, ?_, hmax⟩, rfl⟩
      · exact List.Nodup.sublist
          (keysOf_sublist_of_sublist (List.filter_sublist _)) hnd
      · exact fun kv hkv => hne kv (List.mem_of_mem_filter hkv)
      · have := List.Sublist.length_le
          (List.filter_sublist (l := c.entries)
            (p := fun kv => !(p.isPrefixOf kv.1)))
        push_cast
        push_cast at hlen
        omega
  | invalidate =>
    have hred : applyCacheOp c CacheOp.invalidate =
        { c with entries := [] } := rfl
    rw [hred]
    refine ⟨⟨List.nodup_nil, ?_, ?_, hmax⟩, rfl⟩
    · intro kv hkv
      exact absurd hkv (List.not_mem_nil kv)
    · simp only [List.length_nil, Nat.cast_zero]
      exact le_of_lt hmax

theorem runCache_preserves_inv {α : Type} :
    ∀ (ops : List (CacheOp α)) (c : ResourceCache α), CacheInv c →
    (∀ op ∈ ops, opKeyNonempty op = true) →
    CacheInv (runCache c ops) ∧ (runCache c ops).maxEntries = c.maxEntries := by
  intro ops
  induction ops with
  | nil => intro c hInv _; exact ⟨hInv, rfl⟩
  | cons op rest ih =>
    intro c hInv hops
    have h1 := applyCacheOp_preserves_inv c op
      (hops op (List.mem_cons_self _ _)) hInv
    have h2 := ih (applyCacheOp c op) h1.1
      (fun o ho => hops o (List.mem_cons_of_mem _ ho))
    rw [runCache, List.foldl_cons]
    exact ⟨h2.1, by rw [show (rest.foldl applyCacheOp (applyCacheOp c op)) =
      runCache (applyCacheOp c op) rest from rfl, h2.2, h1.2]⟩

theorem newResourceCache_inv {α : Type} (cfg : Option CacheConfig) :
    CacheInv (newResourceCache α cfg) := by
  have hpos : 0 < (newResourceCache α cfg).maxEntries := by
    cases cfg with
    | none => norm_num [newResourceCache]
    | some c =>
      simp only [newResourceCache]
      by_cases h : c.maxEntries > 0
      · rw [if_pos h]
        exact h
      · rw [if_neg h]
        norm_num
  refine ⟨List.nodup_nil, ?_, ?_, hpos⟩
  · intro kv hkv
    exact absurd hkv (List.not_mem_nil kv)
  · have hent : (newResourceCache α cfg).entries = [] := rfl
    rw [hent]
    simp only [List.length_nil, Nat.cast_zero]
    exact le_of_lt hpos

/-- C6 counterexample: with the empty string as a key, eviction is skipped
(the source guards the deletion with oldestKey different from the empty
string, and the zero value of that variable collides with a genuine empty
key), so a cache configured with MaxEntries one ends up holding two
resident entries. -/
theorem C6_cache_capacity_counterexample :
    (runCache (newResourceCache Nat (some ⟨100, 1⟩))
        [CacheOp.set [] 1 0, CacheOp.set ['x'] 2 1]).entries.length = 2
    ∧ (newResourceCache Nat (some ⟨100, 1⟩)).maxEntries = 1 := by
  constructor
  · rfl
  · rfl

/-- C6 amended: provided no Set or SetWithTTL call ever uses the empty
string as its key, the resident count never exceeds MaxEntries over any
sequence of Set, SetWithTTL, Delete, DeletePrefix and Invalidate calls; a
Set of a not-yet-resident key into a cache holding exactly MaxEntries
entries with pairwise-distinct insertion timestamps evicts exactly the one
entry with the oldest insertion timestamp — strictly older than every other
resident entry, so never a newer one — and keeps the count at MaxEntries;
with MaxEntries two, inserting keys a, b, c in order leaves b and c present
and a absent. -/
theorem C6_cache_eviction_amended :
    (∀ (α : Type) (cfg : Option CacheConfig) (ops : List (CacheOp α)),
        (∀ op ∈ ops, opKeyNonempty op = true) →
        ((runCache (newResourceCache α cfg) ops).entries.length : Int) ≤
          (newResourceCache α cfg).maxEntries)
    ∧ (∀ (α : Type) (c : ResourceCache α) (k : GoStr) (v : α) (ttl now : Int),
        CacheInv c →
        (c.entries.length : Int) = c.maxEntries →
        k ∉ keysOf c.entries → k ≠ [] →
        (c.entries.map (fun kv => kv.2.timestamp)).Nodup →
        ∃ e, (findOldestKey c.entries, e) ∈ c.entries
          ∧ (∀ kv ∈ c.entries, kv.1 ≠ findOldestKey c.entries →
              e.timestamp < kv.2.timestamp)
          ∧ (SetWithTTL c k v ttl now).entries =
              eraseKey c.entries (findOldestKey c.entries)
                ++ [(k, ⟨v, now, ttl, now + ttl⟩)]
          ∧ findOldestKey c.entries ∉ keysOf (SetWithTTL c k v ttl now).entries
          ∧ ((SetWithTTL c k v ttl now).entries.length : Int) = c.maxEntries)
    ∧ (let c3 := runCache (newResourceCache Nat (some ⟨100, 2⟩))
          [CacheOp.set ['a'] 1 0, CacheOp.set ['b'] 2 1, CacheOp.set ['c'] 3 2]
       keysOf c3.entries = [['b'], ['c']]
       ∧ (Get c3 ['a'] 2).2 = false
       ∧ Get c3 ['b'] 2 = (some 2, true)
       ∧ Get c3 ['c'] 2 = (some 3, true)) := by
  refine ⟨?_, ?_, by decide, by decide, by decide, by decide⟩
  · intro α cfg ops hops
    have h := runCache_preserves_inv ops (newResourceCache α cfg)
      (newResourceCache_inv cfg) hops
    rw [← h.2]
    exact h.1.2.2.1
  · intro α c k v ttl now hInv hfull hfresh hk hts
    obtain ⟨hnd, hne, hlen, hmax⟩ := hInv
    have hcap : (c.entries.length : Int) ≥ c.maxEntries := le_of_eq hfull.symm
    have hEne : c.entries ≠ [] := by
      intro h
      rw [h] at hfull
      simp at hfull
      omega
    obtain ⟨e, hmem, hmin⟩ := findOldestKey_spec c.entries hEne
    have hokmem : findOldestKey c.entries ∈ keysOf c.entries :=
      List.mem_map_of_mem _ hmem
    have hokne : findOldestKey c.entries ≠ [] := hne _ hmem
    have hent := SetWithTTL_entries_at_capacity c k v ttl now hcap hokne
    have hfresh1 : k ∉ keysOf (eraseKey c.entries (findOldestKey c.entries)) :=
      fun hmem2 => hfresh ((keysOf_sublist_of_sublist
        (eraseKey_sublist _ _)).subset hmem2)
    have hins : insertEntry (eraseKey c.entries (findOldestKey c.entries)) k
        (⟨v, now, ttl, now + ttl⟩ : CacheEntry α) =
        eraseKey c.entries (findOldestKey c.entries)
          ++ [(k, ⟨v, now, ttl, now + ttl⟩)] :=
      insertEntry_absent _ k _ hfresh1
    refine ⟨e, hmem, ?_, by rw [hent, hins], ?_, ?_⟩
    · intro kv hkv hkne
      have hle := hmin kv hkv
      rcases lt_or_eq_of_le hle with h | h
      · exact h
      · exfalso
        have heq : (findOldestKey c.entries, e) = kv :=
          List.inj_on_of_nodup_map hts hmem hkv (by simpa using h)
        exact hkne (by rw [← heq])
    · rw [hent, hins, keysOf, List.map_append]
      intro hmem2
      rcases List.mem_append.mp hmem2 with h | h
      · exact not_mem_keys_eraseKey c.entries (findOldestKey c.entries) h
      · rw [List.map_singleton, List.mem_singleton] at h
        have hk2 : findOldestKey c.entries = k := h
        exact hfresh (hk2 ▸ hokmem)
    · rw [hent, hins, List.length_append, List.length_singleton]
      have herase := length_eraseKey_mem c.entries _ hnd hokmem
      push_cast
      push_cast at hfull
      omega

/-- Witness for C6 amended at a concrete two-entry cache at capacity,
inserting the fresh key c. -/
theorem C6_cache_eviction_amended_witness :
    (let c := runCache (newResourceCache Nat (some ⟨100, 2⟩))
        [CacheOp.set ['a'] 1 0, CacheOp.set ['b'] 2 1]
     (CacheInv c
      ∧ (c.entries.length : Int) = c.maxEntries
      ∧ ['c'] ∉ keysOf c.entries
      ∧ (c.entries.map (fun kv => kv.2.timestamp)).Nodup)
     ∧ ∃ e, (findOldestKey c.entries, e) ∈ c.entries
        ∧ (∀ kv ∈ c.entries, kv.1 ≠ findOldestKey c.entries →
            e.timestamp < kv.2.timestamp)
        ∧ (SetWithTTL c ['c'] 3 100 2).entries =
            eraseKey c.entries (findOldestKey c.entries) ++ [(['c'], ⟨3, 2, 100, 102⟩)]
        ∧ findOldestKey c.entries ∉ keysOf (SetWithTTL c ['c'] 3 100 2).entries
        ∧ ((SetWithTTL c ['c'] 3 100 2).entries.length : Int) = c.maxEntries) :=
  ⟨⟨by decide, by decide, by decide, by decide⟩,
   C6_cache_eviction_amended.2.1 Nat _ ['c'] 3 100 2
     (by decide) (by decide) (by decide) (by decide) (by decide)⟩

/-- C10 counterexample: at capacity with the key already resident, when the
oldest entry has the empty-string key the eviction is skipped, the other
entry survives and the count stays at MaxEntries instead of dropping to
MaxEntries minus one. -/
theorem C10_overwrite_eviction_counterexample :
    (let c := runCache (newResourceCache Nat (some ⟨100, 2⟩))
        [CacheOp.set [] 1 0, CacheOp.set ['x'] 2 1, CacheOp.set ['x'] 3 2]
     c.entries.length = 2
     ∧ (Get c [] 2).2 = true
     ∧ keysOf c.entries = [[], ['x']]) := by
  refine ⟨rfl, rfl, rfl⟩

/-- C10 amended: provided no resident key is the empty string, a Set or
SetWithTTL at capacity whose key is already resident still evicts the
entry with the oldest insertion timestamp first (unique and strictly oldest
under pairwise-distinct timestamps); when that oldest entry belongs to a
different key, that other entry is lost, the written key maps to the new
entry, and the resident count drops to MaxEntries minus one. -/
theorem C10_overwrite_eviction_amended (α : Type) (c : ResourceCache α)
    (k : GoStr) (v : α) (ttl now : Int)
    (hInv : CacheInv c)
    (hfull : (c.entries.length : Int) = c.maxEntries)
    (hres : k ∈ keysOf c.entries) (hk : k ≠ [])
    (hts : (c.entries.map (fun kv => kv.2.timestamp)).Nodup)
    (hother : findOldestKey c.entries ≠ k) :
    ∃ e, (findOldestKey c.entries, e) ∈ c.entries
      ∧ (∀ kv ∈ c.entries, kv.1 ≠ findOldestKey c.entries →
          e.timestamp < kv.2.timestamp)
      ∧ findOldestKey c.entries ∉ keysOf (SetWithTTL c k v ttl now).entries
      ∧ lookup (SetWithTTL c k v ttl now) k = some ⟨v, now, ttl, now + ttl⟩
      ∧ ((SetWithTTL c k v ttl now).entries.length : Int) = c.maxEntries - 1 := by
  obtain ⟨hnd, hne, hlen, hmax⟩ := hInv
  have hcap : (c.entries.length : Int) ≥ c.maxEntries := le_of_eq hfull.symm
  have hEne : c.entries ≠ [] := by
    intro h
    rw [h] at hfull
    simp at hfull
    omega
  obtain ⟨e, hmem, hmin⟩ := findOldestKey_spec c.entries hEne
  have hokmem : findOldestKey c.entries ∈ keysOf c.entries :=
    List.mem_map_of_mem _ hmem
  have hokne : findOldestKey c.entries ≠ [] := hne _ hmem
  have hent := SetWithTTL_entries_at_capacity c k v ttl now hcap hokne
  have hres1 : k ∈ keysOf (eraseKey c.entries (findOldestKey c.entries)) := by
    obtain ⟨kv, hkv, hfst⟩ := List.mem_map.mp hres
    have hkv2 : kv ∈ eraseKey c.entries (findOldestKey c.entries) := by
      rw [mem_eraseKey]
      exact ⟨hkv, by rw [hfst]; exact fun hh => hother hh.symm⟩
    exact List.mem_map.mpr ⟨kv, hkv2, hfst⟩
  refine ⟨e, hmem, ?_, ?_, ?_, ?_⟩
  · intro kv hkv hkne
    have hle := hmin kv hkv
    rcases lt_or_eq_of_le hle with h | h
    · exact h
    · exfalso
      have heq : (findOldestKey c.entries, e) = kv :=
        List.inj_on_of_nodup_map hts hmem hkv (by simpa using h)
      exact hkne (by rw [← heq])
  · rw [hent, keysOf_insertEntry_present _ k _ hres1]
    exact not_mem_keys_eraseKey c.entries (findOldestKey c.entries)
  · exact lookup_SetWithTTL_self c k v ttl now
  · rw [hent, length_insertEntry_present _ k _ hres1]
    have herase := length_eraseKey_mem c.entries _ hnd hokmem
    push_cast
    push_cast at hfull
    omega

/-- Witness for C10 amended at a concrete two-entry cache, overwriting the
resident key b while a is the oldest entry. -/
theorem C10_overwrite_eviction_amended_witness :
    (let c := runCache (newResourceCache Nat (some ⟨100, 2⟩))
        [CacheOp.set ['a'] 1 0, CacheOp.set ['b'] 2 1]
     (CacheInv c
      ∧ (c.entries.length : Int) = c.maxEntries
      ∧ ['b'] ∈ keysOf c.entries
      ∧ (c.entries.map (fun kv => kv.2.timestamp)).Nodup
      ∧ findOldestKey c.entries ≠ ['b'])
     ∧ ∃ e, (findOldestKey c.entries, e) ∈ c.entries
        ∧ (∀ kv ∈ c.entries, kv.1 ≠ findOldestKey c.entries →
            e.timestamp < kv.2.timestamp)
        ∧ findOldestKey c.entries ∉ keysOf (SetWithTTL c ['b'] 9 100 2).entries
        ∧ lookup (SetWithTTL c ['b'] 9 100 2) ['b'] = some ⟨9, 2, 100, 102⟩
        ∧ ((SetWithTTL c ['b'] 9 100 2).entries.length : Int) =
            c.maxEntries - 1) :=
  ⟨⟨by decide, by decide, by decide, by decide, by decide⟩,
   C10_overwrite_eviction_amended Nat _ ['b'] 9 100 2
     (by decide) (by decide) (by decide) (by decide) (by decide) (by decide)⟩

/-- C7 counterexample: at the exact expiry instant the entry is still
returned as found, because the source misses only when now is strictly
after RefreshAt; the claim that found is false whenever the expiry is at or
before now therefore fails at now equal to the expiry. -/
theorem C7_get_boundary_counterexample :
    (let c := SetWithTTL (newResourceCache Nat none) ['k'] 7 5 0
     lookup c ['k'] = some ⟨7, 0, 5, 5⟩
     ∧ Get c ['k'] 5 = (some 7, true)) := by
  refine ⟨rfl, rfl⟩

/-- C7 amended: Get misses exactly when the key is absent or the entry's
expiry instant lies strictly before now, and it is a total function (no
panic and no error value on a miss); Set with a positive TTL followed by an
immediate Get returns the value with found true, and once now has passed
the insertion time plus the TTL the Get misses. -/
theorem C7_get_ttl_amended :
    (∀ (α : Type) (c : ResourceCache α) (key : GoStr) (now : Int),
        (Get c key now).2 = false ↔
          (lookup c key = none
            ∨ ∃ e, lookup c key = some e ∧ e.refreshAt < now))
    ∧ (∀ (α : Type) (c : ResourceCache α) (key : GoStr) (v : α) (ttl now : Int),
        0 < ttl →
        Get (SetWithTTL c key v ttl now) key now = (some v, true))
    ∧ (∀ (α : Type) (c : ResourceCache α) (key : GoStr) (v : α)
        (ttl now now2 : Int), now + ttl < now2 →
        (Get (SetWithTTL c key v ttl now) key now2).2 = false) := by
  have hlook : ∀ (α : Type) (c : ResourceCache α) (key : GoStr) (v : α)
      (ttl now : Int), lookup (SetWithTTL c key v ttl now) key =
        some (⟨v, now, ttl, now + ttl⟩ : CacheEntry α) :=
    fun α c key v ttl now => lookup_SetWithTTL_self c key v ttl now
  refine ⟨?_, ?_, ?_⟩
  · intro α c key now
    cases hl : lookup c key with
    | none =>
      have hget : Get c key now = (none, false) := by rw [Get, hl]
      rw [hget]
      simp [hl]
    | some e =>
      have hget : Get c key now =
          (if now > e.refreshAt then (none, false)
           else (some e.value, true)) := by
        rw [Get, hl]
      rw [hget]
      by_cases hgt : now > e.refreshAt
      · rw [if_pos hgt]
        simp only [true_iff]
        exact Or.inr ⟨e, rfl, hgt⟩
      · rw [if_neg hgt]
        constructor
        · intro h
          simp at h
        · rintro (h | ⟨e2, he2, hlt⟩)
          · exact Option.noConfusion h
          · have he : e2 = e := by injection he2.symm
            rw [he] at hlt
            exact absurd hlt (by omega)
  · intro α c key v ttl now httl
    have hget : Get (SetWithTTL c key v ttl now) key now =
        (if now > now + ttl then (none, false) else (some v, true)) := by
      rw [Get, hlook α c key v ttl now]
    rw [hget, if_neg (by omega)]
  · intro α c key v ttl now now2 hnow2
    have hget : Get (SetWithTTL c key v ttl now) key now2 =
        (if now2 > now + ttl then (none, false) else (some v, true)) := by
      rw [Get, hlook α c key v ttl now]
    rw [hget, if_pos (by omega)]

/-- Witness for C7 amended: an immediate Get after a Set with TTL five
finds the value, and a Get six ticks later misses. -/
theorem C7_get_ttl_amended_witness :
    ((0 : Int) < 5
      ∧ Get (SetWithTTL (newResourceCache Nat none) ['k'] 7 5 0) ['k'] 0 =
          (some 7, true))
    ∧ ((0 : Int) + 5 < 6
      ∧ (Get (SetWithTTL (newResourceCache Nat none) ['k'] 7 5 0) ['k'] 6).2 =
          false) :=
  ⟨⟨by decide, C7_get_ttl_amended.2.1 Nat _ ['k'] 7 5 0 (by decide)⟩,
   ⟨by decide, C7_get_ttl_amended.2.2 Nat _ ['k'] 7 5 0 6 (by decide)⟩⟩

/-! ## Row events: internal/model1/row_event.go

The Go RowEvents couples a slice of events with a map from row identifier
to slice position; the map is a function to optional positions here. -/

/-- Embeds model1.ResEvent.  The source gives the five variants distinct
bit-flag integer values; no claim depends on the numeric encoding, so the
variants stand alone. -/
inductive ResEvent where
  | unchanged
  | add
  | update
  | delete
  | clear
deriving DecidableEq, Repr

/-- Embeds model1.RowEvent: a kind, a row, and optional deltas. -/
structure RowEvent where
  kind : ResEvent
  row : Row
  deltas : DeltaRow := []
deriving DecidableEq, Repr

/-- Embeds model1.RowEvents: the event slice plus the id-to-position index. -/
structure RowEvents where
  events : List RowEvent
  index : GoStr → Option Nat

namespace RowEvents

/-- Embeds model1.NewRowEvents (the size argument only preallocates). -/
def newRowEvents : RowEvents :=
  ⟨[], fun _ => none⟩

/-- Embeds model1.RowEvents.FindIndex. -/
def findIndex (r : RowEvents) (id : GoStr) : Option Nat :=
  r.index id

/-- Embeds model1.RowEvents.Add: append and point the index at the new
last position. -/
def add (r : RowEvents) (re : RowEvent) : RowEvents :=
  { events := r.events ++ [re]
    index := fun k => if k = re.row.id then some r.events.length else r.index k }

/-- Embeds model1.RowEvents.Upsert: replace in place when the id is
indexed, else Add. -/
def upsert (r : RowEvents) (re : RowEvent) : RowEvents :=
  match r.index re.row.id with
  | some i => { r with events := r.events.set i re }
  | none => add r re

/-- Embeds the loop of model1.RowEvents.reindex: walk the events in order,
pointing the index of each id at its position (mirrors for i, e := range
r.events with an explicit position counter). -/
def reindexAux : Nat → List RowEvent → (GoStr → Option Nat) → (GoStr → Option Nat)
  | _, [], m => m
  | i, e :: rest, m =>
    reindexAux (i + 1) rest (fun k => if k = e.row.id then some i else m k)

/-- Embeds model1.RowEvents.Delete: a missing id reports an error and
leaves the collection untouched; otherwise the victim position is cut out
of the slice, its index entry removed, and the whole index rebuilt. -/
def delete (r : RowEvents) (id : GoStr) : RowEvents :=
  match r.index id with
  | none => r
  | some victim =>
    let evs := r.events.take victim ++ r.events.drop (victim + 1)
    { events := evs
      index := reindexAux 0 evs (fun k => if k = id then none else r.index k) }

/-- One mutating call of the claim. -/
inductive Op where
  | add (re : RowEvent)
  | upsert (re : RowEvent)
  | del (id : GoStr)

def applyOp (r : RowEvents) : Op → RowEvents
  | .add re => add r re
  | .upsert re => upsert r re
  | .del id => delete r id

def run (ops : List Op) : RowEvents :=
  ops.foldl applyOp newRowEvents

/-- A sequence is valid when every Add uses an identifier distinct from
those already present, as the claim requires. -/
def validB : RowEvents → List Op → Bool
  | _, [] => true
  | r, op :: rest =>
    (match op with
     | .add re => !(decide (re.row.id ∈ r.events.map (fun e => e.row.id)))
     | _ => true) && validB (applyOp r op) rest

/-- The identifier column of the event sequence. -/
def ids (r : RowEvents) : List GoStr :=
  r.events.map (fun e => e.row.id)

/-- Index and sequence agree: identifiers are unique, and the index sends
an identifier to a position exactly when its event sits there. -/
def Inv (r : RowEvents) : Prop :=
  (r.events.map (fun e => e.row.id)).Nodup
  ∧ ∀ id i, r.index id = some i ↔
      ∃ h : i < r.events.length, (r.events.get ⟨i, h⟩).row.id = id

theorem reindexAux_not_mem :
    ∀ (l : List RowEvent) (i : Nat) (m : GoStr → Option Nat) (k : GoStr),
    k ∉ l.map (fun e => e.row.id) → reindexAux i l m k = m k := by
  intro l
  induction l with
  | nil => intro i m k _; rfl
  | cons e rest ih =>
    intro i m k hk
    rw [List.map_cons, List.mem_cons] at hk
    push_neg at hk
    rw [reindexAux, ih (i + 1) _ k hk.2, if_neg hk.1]

theorem reindexAux_get :
    ∀ (l : List RowEvent) (i : Nat) (m : GoStr → Option Nat) (k : GoStr)
      (j : Nat) (h : j < l.length),
    (l.map (fun e => e.row.id)).Nodup →
    (l.get ⟨j, h⟩).row.id = k → reindexAux i l m k = some (i + j) := by
  intro l
  induction l with
  | nil => intro i m k j h _ _; simp at h
  | cons e rest ih =>
    intro i m k j h hnd hget
    have hnd2 : (rest.map (fun e => e.row.id)).Nodup :=
      (List.nodup_cons.mp hnd).2
    have hhd : e.row.id ∉ rest.map (fun e => e.row.id) :=
      (List.nodup_cons.mp hnd).1
    cases j with
    | zero =>
      have hke : e.row.id = k := hget
      rw [reindexAux,
        reindexAux_not_mem rest (i + 1) _ k (by rw [← hke]; exact hhd),
        if_pos hke.symm]
      simp
    | succ j0 =>
      have hj0 : j0 < rest.length := by
        simp only [List.length_cons] at h
        omega
      have hget2 : (rest.get ⟨j0, hj0⟩).row.id = k := hget
      rw [reindexAux, ih (i + 1) _ k j0 hj0 hnd2 hget2]
      congr 1
      omega

theorem eraseAt_eq_filter :
    ∀ (l : List RowEvent) (id : GoStr) (v : Nat) (h : v < l.length),
    (l.map (fun e => e.row.id)).Nodup →
    (l.get ⟨v, h⟩).row.id = id →
    l.take v ++ l.drop (v + 1) = l.filter (fun e => !(e.row.id == id)) := by
  intro l
  induction l with
  | nil => intro id v h _ _; simp at h
  | cons e rest ih =>
    intro id v h hnd hget
    have hnd2 : (rest.map (fun e => e.row.id)).Nodup :=
      (List.nodup_cons.mp hnd).2
    have hhd : e.row.id ∉ rest.map (fun e => e.row.id) :=
      (List.nodup_cons.mp hnd).1
    cases v with
    | zero =>
      have hke : e.row.id = id := hget
      rw [List.take_zero, List.drop_succ_cons, List.drop_zero,
        List.nil_append, List.filter_cons]
      have hb : (!(e.row.id == id)) = false := by simp [hke]
      rw [hb, if_neg Bool.false_ne_true]
      symm
      rw [List.filter_eq_self]
      intro a ha
      have hane : a.row.id ≠ id := by
        intro hh
        apply hhd
        rw [hke]
        rw [← hh]
        exact List.mem_map_of_mem _ ha
      simp [hane]
    | succ v0 =>
      have hv0 : v0 < rest.length := by
        simp only [List.length_cons] at h
        omega
      have hget2 : (rest.get ⟨v0, hv0⟩).row.id = id := hget
      have hene : e.row.id ≠ id := by
        intro hh
        apply hhd
        rw [hh, ← hget2]
        exact List.mem_map_of_mem _ (List.get_mem _ _ _)
      rw [List.take_succ_cons, List.drop_succ_cons, List.cons_append,
        List.filter_cons]
      have hb : (!(e.row.id == id)) = true := by simp [hene]
      rw [hb, if_pos rfl, ih id v0 hv0 hnd2 hget2]

theorem inv_empty : Inv newRowEvents := by
  refine ⟨List.nodup_nil, ?_⟩
  intro id i
  constructor
  · intro h
    exact Option.noConfusion h
  · rintro ⟨h, -⟩
    simp [newRowEvents] at h

theorem get_append_last {β : Type} (l : List β) (a : β)
    (h : l.length < (l ++ [a]).length) : (l ++ [a]).get ⟨l.length, h⟩ = a := by
  induction l with
  | nil => rfl
  | cons x xs ih =>
    have h2 : xs.length < (xs ++ [a]).length := by simp
    exact ih h2

theorem get_append_lt {β : Type} (l : List β) (a : β) :
    ∀ (i : Nat) (hi : i < l.length) (h : i < (l ++ [a]).length),
    (l ++ [a]).get ⟨i, h⟩ = l.get ⟨i, hi⟩ := by
  induction l with
  | nil => intro i hi h; simp at hi
  | cons x xs ih =>
    intro i hi h
    cases i with
    | zero => rfl
    | succ j =>
      have hj : j < xs.length := by
        simp only [List.length_cons] at hi
        omega
      have hj2 : j < (xs ++ [a]).length := by
        simp only [List.length_append, List.length_singleton]
        omega
      exact ih j hj hj2

theorem inv_add (r : RowEvents) (re : RowEvent) (hInv : Inv r)
    (hfresh : re.row.id ∉ r.events.map (fun e => e.row.id)) :
    Inv (add r re) := by
  obtain ⟨hnd, hidx⟩ := hInv
  have hlen : (add r re).events.length = r.events.length + 1 := by simp [add]
  have hgetlast : ∀ (h : r.events.length < (add r re).events.length),
      ((add r re).events.get ⟨r.events.length, h⟩) = re :=
    fun h => get_append_last r.events re h
  have hgetlt : ∀ (i : Nat) (hi : i < r.events.length)
      (h : i < (add r re).events.length),
      (add r re).events.get ⟨i, h⟩ = r.events.get ⟨i, hi⟩ :=
    fun i hi h => get_append_lt r.events re i hi h
  constructor
  · show (List.map _ (r.events ++ [re])).Nodup
    rw [List.map_append, List.map_singleton, List.nodup_append]
    refine ⟨hnd, List.nodup_singleton _, ?_⟩
    intro x hx hx2
    rw [List.mem_singleton] at hx2
    rw [hx2] at hx
    exact hfresh hx
  · intro id i
    show (if id = re.row.id then some r.events.length else r.index id) = some i ↔ _
    by_cases hid : id = re.row.id
    · rw [if_pos hid]
      constructor
      · intro h
        have hi : i = r.events.length := by
          injection h with h2
          omega
        subst hi
        refine ⟨by rw [hlen]; omega, ?_⟩
        rw [hgetlast]
        exact hid.symm
      · rintro ⟨h, hget⟩
        rcases Nat.lt_or_ge i r.events.length with hi | hi
        · exfalso
          apply hfresh
          rw [← hid]
          rw [hgetlt i hi h] at hget
          exact List.mem_map.mpr ⟨_, List.get_mem _ _ _, hget⟩
        · have hi2 : i = r.events.length := by
            rw [hlen] at h
            omega
          rw [hi2]
    · rw [if_neg hid, hidx id i]
      constructor
      · rintro ⟨hi, hget⟩
        refine ⟨by rw [hlen]; omega, ?_⟩
        rw [hgetlt i hi]
        exact hget
      · rintro ⟨h, hget⟩
        rcases Nat.lt_or_ge i r.events.length with hi | hi
        · refine ⟨hi, ?_⟩
          rw [hgetlt i hi h] at hget
          exact hget
        · exfalso
          have hi2 : i = r.events.length := by
            rw [hlen] at h
            omega
          subst hi2
          rw [hgetlast h] at hget
          exact hid hget.symm

theorem set_map_ids (l : List RowEvent) (i : Nat) (hi : i < l.length)
    (re : RowEvent) (hsame : (l.get ⟨i, hi⟩).row.id = re.row.id) :
    (l.set i re).map (fun e => e.row.id) = l.map (fun e => e.row.id) := by
  apply List.ext_getElem
  · simp
  · intro j h1 h2
    rw [List.getElem_map, List.getElem_map, List.getElem_set]
    by_cases hij : i = j
    · rw [if_pos hij]
      subst hij
      exact hsame.symm
    · rw [if_neg hij]

theorem inv_upsert (r : RowEvents) (re : RowEvent) (hInv : Inv r) :
    Inv (upsert r re) := by
  obtain ⟨hnd, hidx⟩ := hInv
  cases hfind : r.index re.row.id with
  | none =>
    have hfresh : re.row.id ∉ r.events.map (fun e => e.row.id) := by
      intro hmem
      obtain ⟨e, he, hide⟩ := List.mem_map.mp hmem
      obtain ⟨j, hj⟩ := List.mem_iff_get.mp he
      have hsome : r.index re.row.id = some j.1 :=
        (hidx re.row.id j.1).mpr ⟨j.2, by rw [show r.events.get ⟨j.1, j.2⟩ = e from hj]; exact hide⟩
      rw [hfind] at hsome
      exact Option.noConfusion hsome
    have hrw : upsert r re = add r re := by rw [upsert, hfind]
    rw [hrw]
    exact inv_add r re ⟨hnd, hidx⟩ hfresh
  | some i =>
    obtain ⟨hi, hgeti⟩ := (hidx re.row.id i).mp hfind
    have hev : (upsert r re).events = r.events.set i re := by
      rw [upsert, hfind]
    have hix : (upsert r re).index = r.index := by
      rw [upsert, hfind]
    have hids := set_map_ids r.events i hi re hgeti
    have hlen : (r.events.set i re).length = r.events.length := by simp
    have hguid : ∀ (j : Nat) (h1 : j < (r.events.set i re).length)
        (h2 : j < r.events.length),
        ((r.events.set i re).get ⟨j, h1⟩).row.id =
          (r.events.get ⟨j, h2⟩).row.id := by
      intro j h1 h2
      rw [List.get_eq_getElem, List.get_eq_getElem, List.getElem_set]
      by_cases hij : i = j
      · rw [if_pos hij]
        subst hij
        exact hgeti.symm
      · rw [if_neg hij]
    constructor
    · rw [hev, hids]
      exact hnd
    · intro id j
      rw [hix, hev, hidx id j]
      constructor
      · rintro ⟨h, hget⟩
        refine ⟨by rw [hlen]; exact h, ?_⟩
        rw [hguid j (by rw [hlen]; exact h) h]
        exact hget
      · rintro ⟨h, hget⟩
        have h2 : j < r.events.length := by rw [hlen] at h; exact h
        refine ⟨h2, ?_⟩
        rw [← hguid j h h2]
        exact hget

theorem inv_delete (r : RowEvents) (id : GoStr) (hInv : Inv r) :
    Inv (delete r id)
    ∧ (delete r id).events = r.events.filter (fun e => !(e.row.id == id)) := by
  obtain ⟨hnd, hidx⟩ := hInv
  cases hfind : r.index id with
  | none =>
    have hrw : delete r id = r := by rw [delete, hfind]
    rw [hrw]
    refine ⟨⟨hnd, hidx⟩, ?_⟩
    symm
    rw [List.filter_eq_self]
    intro e he
    have hene : e.row.id ≠ id := by
      intro hh
      obtain ⟨j, hj⟩ := List.mem_iff_get.mp he
      have hsome : r.index id = some j.1 :=
        (hidx id j.1).mpr ⟨j.2, by rw [show r.events.get ⟨j.1, j.2⟩ = e from hj]; exact hh⟩
      rw [hfind] at hsome
      exact Option.noConfusion hsome
    simp [hene]
  | some v =>
    obtain ⟨hv, hgetv⟩ := (hidx id v).mp hfind
    have hfilter := eraseAt_eq_filter r.events id v hv hnd hgetv
    have hev : (delete r id).events =
        r.events.take v ++ r.events.drop (v + 1) := by
      simp only [delete, hfind]
    have hix : (delete r id).index =
        reindexAux 0 (r.events.take v ++ r.events.drop (v + 1))
          (fun k => if k = id then none else r.index k) := by
      simp only [delete, hfind]
    have hsub : (r.events.take v ++ r.events.drop (v + 1)).Sublist r.events := by
      have h1 : (r.events.drop (v + 1)).Sublist (r.events.drop v) := by
        have hd := List.drop_sublist 1 (r.events.drop v)
        rwa [List.drop_drop] at hd
      have h2 := List.Sublist.append_left h1 (r.events.take v)
      rwa [List.take_append_drop] at h2

    have hndevs : ((r.events.take v ++ r.events.drop (v + 1)).map
        (fun e => e.row.id)).Nodup :=
      List.Nodup.sublist (List.Sublist.map _ hsub) hnd
    refine ⟨⟨by rw [hev]; exact hndevs, ?_⟩, by rw [hev]; exact hfilter⟩
    intro key i
    rw [hix, hev]
    constructor
    · intro h
      by_cases hmem : key ∈ (r.events.take v ++ r.events.drop (v + 1)).map
          (fun e => e.row.id)
      · obtain ⟨e, he, hide⟩ := List.mem_map.mp hmem
        obtain ⟨j, hj⟩ := List.mem_iff_get.mp he
        have hrx := reindexAux_get (r.events.take v ++ r.events.drop (v + 1))
          0 (fun k => if k = id then none else r.index k) key j.1 j.2 hndevs
          (by rw [show (r.events.take v ++ r.events.drop (v + 1)).get
                ⟨j.1, j.2⟩ = e from hj]
              exact hide)
        rw [hrx] at h
        have hij : i = j.1 := by
          injection h with h2
          omega
        subst hij
        exact ⟨j.2, by rw [show (r.events.take v ++ r.events.drop (v + 1)).get
            ⟨j.1, j.2⟩ = e from hj]; exact hide⟩
      · rw [reindexAux_not_mem _ 0 _ key hmem] at h
        by_cases hkid : key = id
        · rw [if_pos hkid] at h
          exact Option.noConfusion h
        · rw [if_neg hkid] at h
          exfalso
          obtain ⟨hj, hgj⟩ := (hidx key i).mp h
          apply hmem
          have hein : r.events.get ⟨i, hj⟩ ∈
              r.events.take v ++ r.events.drop (v + 1) := by
            rw [hfilter, List.mem_filter]
            refine ⟨List.get_mem _ _ _, ?_⟩
            rw [hgj]
            simp [hkid]
          exact List.mem_map.mpr ⟨_, hein, hgj⟩
    · rintro ⟨h, hget⟩
      have hrx := reindexAux_get (r.events.take v ++ r.events.drop (v + 1))
        0 (fun k => if k = id then none else r.index k) key i h hndevs hget
      rw [hrx]
      congr 1
      omega

theorem inv_run_aux :
    ∀ (ops : List Op) (r : RowEvents), Inv r → validB r ops = true →
    Inv (ops.foldl applyOp r) := by
  intro ops
  induction ops with
  | nil => intro r hInv _; exact hInv
  | cons op rest ih =>
    intro r hInv hvalid
    rw [List.foldl_cons]
    cases op with
    | add re =>
      rw [validB, Bool.and_eq_true] at hvalid
      have hfresh : re.row.id ∉ r.events.map (fun e => e.row.id) := by
        intro hmem
        have h := hvalid.1
        rw [decide_eq_true hmem] at h
        exact Bool.noConfusion h
      exact ih _ (inv_add r re hInv hfresh) hvalid.2
    | upsert re =>
      simp only [validB, Bool.true_and] at hvalid
      exact ih _ (inv_upsert r re hInv) hvalid
    | del id =>
      simp only [validB, Bool.true_and] at hvalid
      exact ih _ ((inv_delete r id hInv).1) hvalid

/-- The run of a valid sequence of operations keeps the index consistent. -/
theorem inv_run (ops : List Op) (hvalid : validB newRowEvents ops = true) :
    Inv (run ops) :=
  inv_run_aux ops newRowEvents inv_empty hvalid

end RowEvents

/-- C8: over any valid operation sequence from the empty collection (Adds
only with fresh identifiers), the identifier index and the event sequence
stay consistent: identifiers are unique, FindIndex returns exactly the
position of each surviving identifier's event, FindIndex is none for every
identifier absent from the sequence (in particular any identifier deleted
and not re-added), and a Delete removes exactly the victim's event while
preserving the relative order of the rest (the surviving sequence equals
the original filtered by identifier, which also covers a Delete of a
missing identifier leaving the sequence unchanged). -/
theorem C8_rowEvents_index_consistency :
    (∀ ops : List RowEvents.Op, RowEvents.validB RowEvents.newRowEvents ops = true →
      ((RowEvents.run ops).events.map (fun e => e.row.id)).Nodup
      ∧ (∀ id i, RowEvents.findIndex (RowEvents.run ops) id = some i ↔
          ∃ h : i < (RowEvents.run ops).events.length,
            ((RowEvents.run ops).events.get ⟨i, h⟩).row.id = id)
      ∧ (∀ id, id ∉ (RowEvents.run ops).events.map (fun e => e.row.id) →
          RowEvents.findIndex (RowEvents.run ops) id = none))
    ∧ (∀ ops : List RowEvents.Op, RowEvents.validB RowEvents.newRowEvents ops = true →
        ∀ id, (RowEvents.run (ops ++ [RowEvents.Op.del id])).events =
          (RowEvents.run ops).events.filter (fun e => !(e.row.id == id))) := by
  have hkey : ∀ ops : List RowEvents.Op,
      RowEvents.validB RowEvents.newRowEvents ops = true →
      RowEvents.Inv (RowEvents.run ops) := RowEvents.inv_run
  constructor
  · intro ops hvalid
    obtain ⟨hnd, hidx⟩ := hkey ops hvalid
    refine ⟨hnd, hidx, ?_⟩
    intro id hid
    cases hfind : (RowEvents.run ops).index id with
    | none => exact hfind
    | some j =>
      exfalso
      obtain ⟨hj, hgj⟩ := (hidx id j).mp hfind
      exact hid (List.mem_map.mpr ⟨_, List.get_mem _ _ _, hgj⟩)
  · intro ops hvalid id
    have hrw : RowEvents.run (ops ++ [RowEvents.Op.del id]) =
        RowEvents.delete (RowEvents.run ops) id := by
      rw [RowEvents.run, List.foldl_append]
      rfl
    rw [hrw]
    exact (RowEvents.inv_delete (RowEvents.run ops) id (hkey ops hvalid)).2

/-- Embeds model1.TableData: header, row events, namespace and error text. -/
structure TD where
  header : Header
  revents : RowEvents
  ns : GoStr
  errMsg : GoStr

/-- Embeds model1.NewTableData: empty header, fresh row events, empty
namespace and error. -/
def newTableDataM : TD :=
  ⟨[], RowEvents.newRowEvents, [], []⟩

/-- Embeds model1.TableData.Empty: true when the row events are empty. -/
def TD.Empty (d : TD) : Bool :=
  d.revents.events.isEmpty

/-- Embeds model.TableData, the synchronization engine: the current
snapshot plus whether an accessor and a renderer are configured. -/
structure Engine where
  data : TD
  hasAccessor : Bool
  hasRenderer : Bool

/-- Listener notifications: TableDataChanged, TableNoData, TableLoadFailed. -/
inductive TNotif where
  | dataChanged (d : TD)
  | noData (d : TD)
  | loadFailed (err : GoStr)

/-- Result of one Refresh call: the new engine state, the returned error,
and the listener notifications fired, in order. -/
structure RefreshOut where
  engine : Engine
  err : Option GoStr
  notifs : List TNotif

/-- Embeds model.TableData.Refresh. The fetch argument is the outcome of
accessor.List; each listed object carries the row its renderer.Render call
produced, or none when Render errored (the code then skips the object).
As in the source, the assembled rowEvents value is used only for the
notification branch and is never attached to newData before storing. -/
def refresh (t : Engine) (header : Header)
    (fetch : Except GoStr (List (Option Row))) : RefreshOut :=
  if t.hasAccessor = false then
    ⟨t, some (("no accessor configured").toList), []⟩
  else if t.hasRenderer = false then
    ⟨t, some (("no renderer configured").toList), []⟩
  else
    match fetch with
    | Except.error e =>
        ⟨t, some ((("failed to list resources: ").toList) ++ e), []⟩
    | Except.ok objects =>
        let newData : TD := { newTableDataM with header := header }
        let rowEvents := objects.foldl
          (fun acc obj =>
            match obj with
            | none => acc
            | some row => RowEvents.add acc ⟨ResEvent.add, row, []⟩)
          RowEvents.newRowEvents
        let oldEmpty := t.data.Empty
        let t2 : Engine := { t with data := newData }
        if rowEvents.events.isEmpty && !oldEmpty then
          ⟨t2, none, [TNotif.noData newData]⟩
        else
          ⟨t2, none, [TNotif.dataChanged newData]⟩

/-- Embeds model.TableData.Peek: the current snapshot (the source clone
shares the row events and copies the scalar fields). -/
def Peek (t : Engine) : TD :=
  t.data

/-- One tick of model.TableData.watchLoop: Refresh, and on error notify
the load-failed listeners; the loop continues either way. -/
def watchTick (t : Engine)
    (tick : Header × Except GoStr (List (Option Row))) :
    Engine × List TNotif :=
  let out := refresh t tick.1 tick.2
  match out.err with
  | some e => (out.engine, out.notifs ++ [TNotif.loadFailed e])
  | none => (out.engine, out.notifs)

/-- Embeds the ticker loop of model.TableData.watchLoop over a finite
trace of tick outcomes, collecting all notifications in order. -/
def watchLoop :
    Engine → List (Header × Except GoStr (List (Option Row))) →
      Engine × List TNotif
  | t, [] => (t, [])
  | t, tick :: rest =>
    let s := watchTick t tick
    let r := watchLoop s.1 rest
    (r.1, s.2 ++ r.2)

theorem refresh_ok_engine (d : TD) (header : Header)
    (objects : List (Option Row)) :
    (refresh ⟨d, true, true⟩ header (Except.ok objects)).engine =
      ⟨{ newTableDataM with header := header }, true, true⟩ := by
  rw [refresh, if_neg (fun h => Bool.noConfusion h),
    if_neg (fun h => Bool.noConfusion h)]
  dsimp only
  split <;> rfl

theorem refresh_ok_err (d : TD) (header : Header)
    (objects : List (Option Row)) :
    (refresh ⟨d, true, true⟩ header (Except.ok objects)).err = none := by
  rw [refresh, if_neg (fun h => Bool.noConfusion h),
    if_neg (fun h => Bool.noConfusion h)]
  dsimp only
  split <;> rfl

/-- Rendered view outcomes of ui.Table.renderData. -/
inductive RenderOut where
  | noDataMsg (msg : GoStr)
  | rendered (d : TD)

/-- strings.ToLower over a Go string. -/
def toLowerGo (s : GoStr) : GoStr :=
  s.map Char.toLower

/-- strings.Contains: sub occurs contiguously inside s. -/
def containsGo (s sub : GoStr) : Bool :=
  (List.range (s.length + 1)).any (fun i => List.isPrefixOf sub (s.drop i))

/-- Embeds the ui.Table state relevant to filtering. -/
structure TableUI where
  fullData : Option TD
  filterText : GoStr
  filterActive : Bool
  isUpdating : Bool

/-- Embeds ui.Table.renderData: an empty table shows the no-matching
message, otherwise the data renders row for row. -/
def renderData (d : TD) : RenderOut :=
  if d.Empty then RenderOut.noDataMsg (("No matching resources").toList)
  else RenderOut.rendered d

/-- Embeds ui.Table.applyFilter: with no stored snapshot nothing renders;
an empty filter renders the stored snapshot itself; otherwise a fresh
filtered TableData is built (header and namespace copied, rows whose
lowercased fields contain the lowercased filter added) and rendered,
leaving the stored snapshot untouched. -/
def applyFilter (t : TableUI) : Option RenderOut :=
  match t.fullData with
  | none => none
  | some data =>
    let filter := toLowerGo t.filterText
    if filter.isEmpty then some (renderData data)
    else
      let filteredEvents := data.revents.events.foldl
        (fun acc re =>
          if re.row.fields.any (fun f => containsGo (toLowerGo f) filter)
          then RowEvents.add acc re else acc)
        RowEvents.newRowEvents
      some (renderData ⟨data.header, filteredEvents, data.ns, []⟩)

/-- Embeds setting the filter text (handleFilterInput rune, backspace and
escape paths, clearFilterHandler): store the new text, then applyFilter
re-renders from the stored snapshot. -/
def setFilter (t : TableUI) (s : GoStr) : TableUI × Option RenderOut :=
  let t1 : TableUI := { t with filterText := s }
  (t1, applyFilter t1)

/-- The render decision of ui.Table.UpdateUI after storing the snapshot. -/
def updateRender (t1 : TableUI) (data : Option TD) : Option RenderOut :=
  match data with
  | none => some (RenderOut.noDataMsg (("No resources found").toList))
  | some d =>
    if d.Empty then some (RenderOut.noDataMsg (("No resources found").toList))
    else if t1.filterText.isEmpty = false then applyFilter t1
    else some (renderData d)

/-- Embeds ui.Table.UpdateUI: re-entrant updates are dropped; otherwise the
snapshot is stored as fullData, empty or missing data shows the
no-resources message, an active filter re-renders through applyFilter, and
otherwise the snapshot renders directly. -/
def updateUI (t : TableUI) (data : Option TD) : TableUI × Option RenderOut :=
  if t.isUpdating then (t, none)
  else
    let t1 : TableUI := { t with fullData := data }
    (t1, updateRender t1 data)

/-- Concrete UI state used to instantiate the round-trip property. -/
def uiW : TableUI := ⟨none, [], false, false⟩

/-- Concrete one-row snapshot used to instantiate the round-trip property. -/
def tdW : TD :=
  ⟨[], RowEvents.add RowEvents.newRowEvents ⟨ResEvent.add, ⟨['a'], [['v']]⟩, []⟩, [], []⟩

/-- C1 (code bug): the spec's notification policy does not hold in the
code. Refresh assembles a local rowEvents value but never attaches it to
newData, so the snapshot stored by every successful Refresh has zero rows
and no error, the previous snapshot is therefore always empty at the next
call, and the TableNoData branch is unreachable across the engine's own
lifecycle: a Refresh yielding zero rows immediately after a Refresh that
yielded one row still fires TableDataChanged, never TableNoData. -/
theorem C1_refresh_notification_bug :
    (∀ (t : Engine) (header : Header) (objects : List (Option Row)),
        t.hasAccessor = true → t.hasRenderer = true →
        (refresh t header (Except.ok objects)).engine.data.revents.events = []
        ∧ (refresh t header (Except.ok objects)).err = none)
    ∧ (∀ (d : TD) (header1 header2 : Header) (r : Row),
        (refresh (refresh ⟨d, true, true⟩ header1
            (Except.ok [some r])).engine header2 (Except.ok [])).notifs =
          [TNotif.dataChanged { newTableDataM with header := header2 }]
        ∧ ∀ x : TD, TNotif.noData x ∉
            (refresh (refresh ⟨d, true, true⟩ header1
              (Except.ok [some r])).engine header2 (Except.ok [])).notifs) := by
  constructor
  · intro t header objects hA hR
    obtain ⟨d, ha, hr⟩ := t
    cases ha
    · exact Bool.noConfusion hA
    cases hr
    · exact Bool.noConfusion hR
    refine ⟨?_, refresh_ok_err d header objects⟩
    rw [refresh_ok_engine d header objects]
    rfl
  · intro d header1 header2 r
    have he := refresh_ok_engine d header1 [some r]
    rw [he]
    have hn : (refresh ⟨{ newTableDataM with header := header1 }, true, true⟩
        header2 (Except.ok [])).notifs =
          [TNotif.dataChanged { newTableDataM with header := header2 }] := rfl
    refine ⟨hn, ?_⟩
    intro x hx
    rw [hn] at hx
    exact TNotif.noConfusion (List.mem_singleton.mp hx)

/-- Witness for C1: a configured engine, one rendered row fetched, the
stored snapshot still holds zero rows and no error is returned. -/
theorem C1_refresh_notification_bug_witness :
    ((⟨newTableDataM, true, true⟩ : Engine).hasAccessor = true
      ∧ (⟨newTableDataM, true, true⟩ : Engine).hasRenderer = true)
    ∧ (refresh ⟨newTableDataM, true, true⟩ []
        (Except.ok [some ⟨['a'], [['v']]⟩])).engine.data.revents.events = [] :=
  ⟨⟨rfl, rfl⟩, (C1_refresh_notification_bug.1 _ _ _ rfl rfl).1⟩

/-- C2: on fetch failure Refresh leaves the engine and its snapshot
untouched (Peek is unchanged), fires no data-changed or no-data
notification, and returns the wrapped error; the watch loop reacts to a
failed tick by emitting exactly one load-failed notification and then
continues with the remaining ticks from the unchanged engine state. -/
theorem C2_refresh_error_handling :
    (∀ (t : Engine) (header : Header) (e : GoStr),
        t.hasAccessor = true → t.hasRenderer = true →
        (refresh t header (Except.error e)).engine = t
        ∧ Peek (refresh t header (Except.error e)).engine = Peek t
        ∧ (refresh t header (Except.error e)).err =
            some ((("failed to list resources: ").toList) ++ e)
        ∧ (refresh t header (Except.error e)).notifs = [])
    ∧ (∀ (t : Engine) (header : Header) (e : GoStr)
          (rest : List (Header × Except GoStr (List (Option Row)))),
        t.hasAccessor = true → t.hasRenderer = true →
        watchLoop t ((header, Except.error e) :: rest) =
          ((watchLoop t rest).1,
            TNotif.loadFailed ((("failed to list resources: ").toList) ++ e) ::
              (watchLoop t rest).2)) := by
  constructor
  · intro t header e hA hR
    obtain ⟨d, ha, hr⟩ := t
    cases ha
    · exact Bool.noConfusion hA
    cases hr
    · exact Bool.noConfusion hR
    exact ⟨rfl, rfl, rfl, rfl⟩
  · intro t header e rest hA hR
    obtain ⟨d, ha, hr⟩ := t
    cases ha
    · exact Bool.noConfusion hA
    cases hr
    · exact Bool.noConfusion hR
    rfl

/-- Witness for C2: a configured engine and a failing fetch leave the
engine unchanged. -/
theorem C2_refresh_error_handling_witness :
    ((⟨newTableDataM, true, true⟩ : Engine).hasAccessor = true
      ∧ (⟨newTableDataM, true, true⟩ : Engine).hasRenderer = true)
    ∧ (refresh ⟨newTableDataM, true, true⟩ []
        (Except.error ['x'])).engine = ⟨newTableDataM, true, true⟩ :=
  ⟨⟨rfl, rfl⟩, (C2_refresh_error_handling.1 _ _ _ rfl rfl).1⟩

/-- C9: filtering round-trips. After UpdateUI stores a non-empty snapshot,
setting a non-empty filter and then the empty filter renders exactly the
stored snapshot again, and no step of the sequence mutates or discards the
stored full snapshot (fullData still holds the identical TableData, hence
identical header, namespace and row events, throughout). -/
theorem C9_filter_round_trip (t : TableUI) (d : TD) (x : GoStr)
    (hupd : t.isUpdating = false) (hne : d.Empty = false) (hx : x ≠ []) :
    (let u := (updateUI t (some d)).1
     let v := (setFilter u x).1
     let w := setFilter v []
     u.fullData = some d ∧ v.fullData = some d ∧ w.1.fullData = some d
     ∧ w.2 = some (RenderOut.rendered d)) := by
  have hneg : ¬(t.isUpdating = true) := by
    rw [hupd]
    exact Bool.false_ne_true
  have hu : updateUI t (some d) =
      ({ t with fullData := some d },
        updateRender { t with fullData := some d } (some d)) := by
    rw [updateUI, if_neg hneg]
  have hr : renderData d = RenderOut.rendered d := by
    rw [renderData, if_neg (by rw [hne]; exact Bool.false_ne_true)]
  simp only [hu]
  refine ⟨by trivial, by trivial, by trivial, ?_⟩
  have hw : (setFilter (setFilter { t with fullData := some d } x).1 []).2 =
      some (renderData d) := rfl
  exact hw.trans (congrArg some hr)

/-- Witness for C9: an idle table, a one-row snapshot and the filter z. -/
theorem C9_filter_round_trip_witness :
    (uiW.isUpdating = false ∧ tdW.Empty = false ∧ (['z'] : GoStr) ≠ [])
    ∧ (let u := (updateUI uiW (some tdW)).1
       let v := (setFilter u ['z']).1
       let w := setFilter v []
       u.fullData = some tdW ∧ v.fullData = some tdW ∧ w.1.fullData = some tdW
       ∧ w.2 = some (RenderOut.rendered tdW)) :=
  ⟨⟨rfl, rfl, by decide⟩, C9_filter_round_trip uiW tdW ['z'] rfl rfl (by decide)⟩

/-- Witness for C8 on the concrete sequence add a, add b, upsert b, delete a. -/
theorem C8_rowEvents_index_consistency_witness :
    (let ra : A1s.RowEvent := ⟨ResEvent.add, ⟨['a'], [['1']]⟩, []⟩
     let rb : A1s.RowEvent := ⟨ResEvent.add, ⟨['b'], [['2']]⟩, []⟩
     let rb2 : A1s.RowEvent := ⟨ResEvent.update, ⟨['b'], [['3']]⟩, []⟩
     let ops := [RowEvents.Op.add ra, RowEvents.Op.add rb,
                 RowEvents.Op.upsert rb2, RowEvents.Op.del ['a']]
     RowEvents.validB RowEvents.newRowEvents ops = true
     ∧ (((RowEvents.run ops).events.map (fun e => e.row.id)).Nodup
        ∧ (∀ id i, RowEvents.findIndex (RowEvents.run ops) id = some i ↔
            ∃ h : i < (RowEvents.run ops).events.length,
              ((RowEvents.run ops).events.get ⟨i, h⟩).row.id = id)
        ∧ (∀ id, id ∉ (RowEvents.run ops).events.map (fun e => e.row.id) →
            RowEvents.findIndex (RowEvents.run ops) id = none))) :=
  ⟨by decide, C8_rowEvents_index_consistency.1 _ (by decide)⟩

end A1s
